import Mathlib

/-!
# Misfit Studio — verification of the manifest-driven installer

This file gives a shallow embedding of the parts of the Misfit Studio
repository that the specification talks about, and proves (or refutes)
the specification's claims about them.

The embedded code comes from:
* `payloads/.../scripts/apply-macos.sh` (`update_file_block`) and
  `payloads/.../scripts/apply.ps1` (`Update-FileBlock`): the marker patch
  engine;
* `installer-ui/src/App.tsx` (`Dashboard`): payload resolution, build
  validation (`handleBuild`), manifest export/import, preset coercion;
* `installer-ui/src/components/Installer.tsx` (`handleInstall`): the
  installer-side consent flow.

Text is modelled as `List Char` for the patch scripts (where we need
index arithmetic) and as `String` for the TypeScript layer.  JavaScript
`String.prototype.trim` is modelled by `jsTrim` below (ASCII whitespace
plus NBSP and BOM; the remaining exotic Unicode space characters do not
occur in any input considered here).
-/

namespace MisfitStudio

/-! ## Marker patch engine (apply-macos.sh / apply.ps1)

`apply-macos.sh`'s `update_file_block` checks `grep -qF "$start_marker"`
and on a hit runs a perl substitution of the non-greedy pattern
start-marker `.*?` end-marker (first match only, dot matching newlines);
on a miss it appends a newline, the block and a trailing newline.

`apply.ps1`'s `Update-FileBlock` tests `$content -match $pattern` for
the analogous `(?s)` pattern and on a hit runs the static .NET
`[regex]::Replace`, which replaces EVERY non-overlapping match left to
right; on a miss it appends CRLF, the block, and a trailing CRLF.
-/

abbrev Chars := List Char

/-- `leadsWith pat s` is true when `pat` is an initial segment of `s`
(the anchored fixed-string match both regex engines perform at a
candidate position). -/
def leadsWith : Chars → Chars → Bool
  | [], _ => true
  | _ :: _, [] => false
  | p :: ps, c :: cs => p = c && leadsWith ps cs

/-- Index of the first occurrence of the fixed string `pat` in `s`. -/
def firstIdx (pat s : Chars) : Option Nat :=
  match s with
  | [] => if leadsWith pat [] then some 0 else none
  | c :: rest =>
    if leadsWith pat (c :: rest) then some 0 else (firstIdx pat rest).map (· + 1)

/-- `occursIn pat s`: the fixed string `pat` occurs somewhere in `s`
(the `grep -qF` test of the macOS script). -/
def occursIn (pat s : Chars) : Bool := (firstIdx pat s).isSome

/-- Length of the non-greedy match `S.*?E` (dot-matches-all) anchored at
the start of `s`, if any: `S`, then the shortest stretch up to the first
following occurrence of `E`. -/
def matchAt0 (S E s : Chars) : Option Nat :=
  if leadsWith S s then
    (firstIdx E (s.drop S.length)).map (fun k => S.length + k + E.length)
  else none

/-- Leftmost, non-greedy match of `S.*?E` over the whole of `s` (the
span that the perl substitution and the first .NET match cover): the
start index and the index one past the end. -/
def findSpan (S E : Chars) : Chars → Option (Nat × Nat)
  | [] => (matchAt0 S E []).map (fun j => (0, j))
  | c :: rest =>
    match matchAt0 S E (c :: rest) with
    | some j => some (0, j)
    | none => (findSpan S E rest).map (fun p => (p.1 + 1, p.2 + 1))

/-- `update_file_block` from `apply-macos.sh`: replace the first marker
span, or, when the start marker is absent, append newline + block +
newline.  When the start marker occurs but no full `S.*?E` match exists
the perl substitution finds nothing and the file is left unchanged. -/
def updateFileBlockSh (s S E block : Chars) : Chars :=
  if occursIn S s then
    match findSpan S E s with
    | some (i, j) => s.take i ++ block ++ s.drop j
    | none => s
  else s ++ '\n' :: (block ++ ['\n'])

/-- All-matches replacement, the semantics of the static .NET
`[regex]::Replace` used by `apply.ps1`: repeatedly take the leftmost
match of the remaining text and continue after it.  `fuel` bounds the
recursion; `s.length` steps always suffice for non-empty markers, since
each match then consumes at least one character.  The `max j (i + 1)`
advance only differs from `j` in the degenerate case of two empty
markers. -/
def replaceAllSpans : Nat → Chars → Chars → Chars → Chars → Chars
  | 0, _, _, _, s => s
  | fuel + 1, S, E, block, s =>
    match findSpan S E s with
    | none => s
    | some (i, j) =>
      s.take i ++ block ++ replaceAllSpans fuel S E block (s.drop (max j (i + 1)))

/-- `Update-FileBlock` from `apply.ps1`: if the pattern matches, replace
every occurrence (global .NET replace); otherwise append CRLF + block +
CRLF. -/
def updateFileBlockPs1 (s S E block : Chars) : Chars :=
  if (findSpan S E s).isSome then replaceAllSpans s.length S E block s
  else s ++ '\r' :: '\n' :: (block ++ ['\r', '\n'])

/-! ### Properties of the span search -/

theorem drop_len_append (u v : Chars) (i : Nat) :
    (u ++ v).drop (u.length + i) = v.drop i := by
  induction u with
  | nil => simp
  | cons c cs ih => simp [Nat.succ_add, ih]

theorem leadsWith_iff_exists (pat s : Chars) :
    leadsWith pat s = true ↔ ∃ t, s = pat ++ t := by
  induction pat generalizing s with
  | nil =>
    constructor
    · intro _; exact ⟨s, rfl⟩
    · intro _; rfl
  | cons p ps ih =>
    cases s with
    | nil =>
      constructor
      · intro h; cases h
      · rintro ⟨t, ht⟩; cases ht
    | cons c cs =>
      simp only [leadsWith, Bool.and_eq_true, decide_eq_true_eq, ih]
      constructor
      · rintro ⟨rfl, t, rfl⟩; exact ⟨t, rfl⟩
      · rintro ⟨t, ht⟩
        injection ht with h1 h2
        exact ⟨h1.symm, t, h2⟩

theorem leadsWith_append_right (pat u v : Chars) (h : leadsWith pat u = true) :
    leadsWith pat (u ++ v) = true := by
  obtain ⟨t, rfl⟩ := (leadsWith_iff_exists pat u).1 h
  exact (leadsWith_iff_exists pat _).2 ⟨t ++ v, by simp⟩

theorem length_le_of_leadsWith (pat u : Chars) (h : leadsWith pat u = true) :
    pat.length ≤ u.length := by
  obtain ⟨t, rfl⟩ := (leadsWith_iff_exists pat u).1 h
  simp

theorem firstIdx_some (pat s : Chars) (k : Nat) (h : firstIdx pat s = some k) :
    leadsWith pat (s.drop k) = true ∧
      (∀ k', k' < k → leadsWith pat (s.drop k') = false) ∧ k ≤ s.length := by
  induction s generalizing k with
  | nil =>
    simp only [firstIdx] at h
    split at h
    · rename_i hl
      simp only [Option.some.injEq] at h
      subst h
      exact ⟨hl, fun k' hk' => absurd hk' (Nat.not_lt_zero _), Nat.le_refl _⟩
    · cases h
  | cons c rest ih =>
    simp only [firstIdx] at h
    split at h
    · rename_i hl
      simp only [Option.some.injEq] at h
      subst h
      exact ⟨hl, fun k' hk' => absurd hk' (Nat.not_lt_zero _), Nat.zero_le _⟩
    · rename_i hl
      cases hrec : firstIdx pat rest with
      | none => rw [hrec] at h; cases h
      | some k0 =>
        rw [hrec] at h
        simp only [Option.map, Option.some.injEq] at h
        subst h
        obtain ⟨h1, h2, h3⟩ := ih k0 hrec
        refine ⟨h1, ?_, by simp; omega⟩
        intro k' hk'
        cases k' with
        | zero =>
          simpa using Bool.eq_false_iff.mpr hl
        | succ k'' =>
          rw [List.drop_succ_cons]
          exact h2 k'' (by omega)

theorem firstIdx_isSome_of_leadsWith (pat s : Chars) (i : Nat)
    (h : leadsWith pat (s.drop i) = true) : (firstIdx pat s).isSome = true := by
  induction s generalizing i with
  | nil =>
    simp only [List.drop_nil] at h
    simp [firstIdx, h]
  | cons c rest ih =>
    cases i with
    | zero =>
      simp only [List.drop_zero] at h
      simp [firstIdx, h]
    | succ i0 =>
      simp only [List.drop_succ_cons] at h
      simp only [firstIdx]
      split
      · simp
      · have hsome := ih i0 h
        cases hrec : firstIdx pat rest with
        | none => rw [hrec] at hsome; simp at hsome
        | some k => simp [hrec]

theorem occursIn_append_inner (pat w u v : Chars) (h : occursIn pat u = true) :
    occursIn pat (w ++ u ++ v) = true := by
  unfold occursIn at h ⊢
  cases hf : firstIdx pat u with
  | none => rw [hf] at h; simp at h
  | some k =>
    obtain ⟨h1, _, h3⟩ := firstIdx_some pat u k hf
    have hdrop : (w ++ u ++ v).drop (w.length + k) = u.drop k ++ v := by
      rw [List.append_assoc, drop_len_append, List.drop_append_of_le_length h3]
    have hlead : leadsWith pat ((w ++ u ++ v).drop (w.length + k)) = true := by
      rw [hdrop]; exact leadsWith_append_right _ _ _ h1
    exact firstIdx_isSome_of_leadsWith pat _ _ hlead

theorem matchAt0_some (S E s : Chars) (j : Nat) (h : matchAt0 S E s = some j) :
    ∃ mid, s = S ++ (mid ++ (E ++ s.drop j)) ∧
      j = S.length + mid.length + E.length ∧
      (∀ k', k' < mid.length →
        leadsWith E ((mid ++ (E ++ s.drop j)).drop k') = false) := by
  simp only [matchAt0] at h
  split at h
  · rename_i hS
    cases hE : firstIdx E (s.drop S.length) with
    | none => rw [hE] at h; cases h
    | some k =>
      rw [hE] at h
      simp only [Option.map, Option.some.injEq] at h
      subst h
      obtain ⟨hE1, hE2, hE3⟩ := firstIdx_some E (s.drop S.length) k hE
      obtain ⟨tails, htails⟩ := (leadsWith_iff_exists S s).1 hS
      have hdropS : s.drop S.length = tails := by
        rw [htails]
        simp
      rw [hdropS] at hE1 hE2 hE3
      obtain ⟨tailE, htailE⟩ := (leadsWith_iff_exists E _).1 hE1
      have hmidlen : (tails.take k).length = k := by
        simp [Nat.min_eq_left hE3]
      have htails_decomp : tails = tails.take k ++ (E ++ tailE) := by
        conv_lhs => rw [← List.take_append_drop k tails]
        rw [htailE]
      have hlenkE : (tails.take k ++ E).length = k + E.length := by
        simp [hmidlen]
      have hassoc : tails = (tails.take k ++ E) ++ tailE := by
        rw [List.append_assoc]; exact htails_decomp
      have hdropj : s.drop (S.length + k + E.length) = tailE := by
        rw [htails, show S.length + k + E.length = S.length + (k + E.length) by omega,
          drop_len_append]
        conv_lhs => rw [hassoc, ← hlenkE]
        simpa using drop_len_append (tails.take k ++ E) tailE 0
      refine ⟨tails.take k, ?_, ?_, ?_⟩
      · rw [hdropj]
        conv_lhs => rw [htails, htails_decomp]
      · rw [hmidlen]
      · intro k' hk'
        rw [hdropj, ← htails_decomp]
        rw [hmidlen] at hk'
        exact hE2 k' hk'
  · cases h

theorem matchAt0_leadsWith (S E s : Chars) (j : Nat) (h : matchAt0 S E s = some j) :
    leadsWith S s = true := by
  simp only [matchAt0] at h
  split at h
  · rename_i hS; exact hS
  · cases h

theorem matchAt0_append (S E u v : Chars) (h : (matchAt0 S E u).isSome = true) :
    (matchAt0 S E (u ++ v)).isSome = true := by
  cases hm : matchAt0 S E u with
  | none => rw [hm] at h; simp at h
  | some j =>
    have hS : leadsWith S u = true := matchAt0_leadsWith S E u j hm
    simp only [matchAt0] at hm
    rw [if_pos hS] at hm
    have hSuv : leadsWith S (u ++ v) = true := leadsWith_append_right _ _ _ hS
    simp only [matchAt0, if_pos hSuv]
    have hdropuv : (u ++ v).drop S.length = u.drop S.length ++ v :=
      List.drop_append_of_le_length (length_le_of_leadsWith _ _ hS)
    cases hE : firstIdx E (u.drop S.length) with
    | none => rw [hE] at hm; cases hm
    | some k =>
      have hocc : occursIn E (u.drop S.length) = true := by
        unfold occursIn; rw [hE]; rfl
      have hocc2 : occursIn E (u.drop S.length ++ v) = true := by
        simpa using occursIn_append_inner E [] (u.drop S.length) v hocc
      unfold occursIn at hocc2
      rw [hdropuv]
      cases hE2 : firstIdx E (u.drop S.length ++ v) with
      | none => rw [hE2] at hocc2; simp at hocc2
      | some k2 => simp

theorem findSpan_some (S E s : Chars) (i j : Nat) (h : findSpan S E s = some (i, j)) :
    matchAt0 S E (s.drop i) = some (j - i) ∧ i ≤ j ∧ i ≤ s.length ∧
      ∀ i', i' < i → matchAt0 S E (s.drop i') = none := by
  induction s generalizing i j with
  | nil =>
    simp only [findSpan] at h
    cases hm : matchAt0 S E [] with
    | none => rw [hm] at h; cases h
    | some j0 =>
      rw [hm] at h
      simp only [Option.map, Option.some.injEq, Prod.mk.injEq] at h
      obtain ⟨rfl, rfl⟩ := h.symm
      exact ⟨by simpa using hm, Nat.zero_le _, Nat.le_refl _,
        fun i' hi' => absurd hi' (Nat.not_lt_zero _)⟩
  | cons c rest ih =>
    simp only [findSpan] at h
    cases hm : matchAt0 S E (c :: rest) with
    | some j0 =>
      rw [hm] at h
      simp only [Option.some.injEq, Prod.mk.injEq] at h
      obtain ⟨rfl, rfl⟩ := h.symm
      exact ⟨by simpa using hm, Nat.zero_le _, Nat.zero_le _,
        fun i' hi' => absurd hi' (Nat.not_lt_zero _)⟩
    | none =>
      rw [hm] at h
      cases hrec : findSpan S E rest with
      | none => rw [hrec] at h; cases h
      | some p =>
        rw [hrec] at h
        obtain ⟨i0, j0⟩ := p
        simp only [Option.map, Option.some.injEq, Prod.mk.injEq] at h
        obtain ⟨rfl, rfl⟩ := h.symm
        obtain ⟨g1, g2, g3, g4⟩ := ih i0 j0 hrec
        refine ⟨?_, by omega, by simp; omega, ?_⟩
        · rw [List.drop_succ_cons]
          simpa [Nat.succ_sub_succ] using g1
        · intro i' hi'
          cases i' with
          | zero => simpa using hm
          | succ i'' =>
            rw [List.drop_succ_cons]
            exact g4 i'' (by omega)

theorem findSpan_isSome_of_matchAt0 (S E w : Chars) (p : Nat)
    (h : (matchAt0 S E (w.drop p)).isSome = true) : (findSpan S E w).isSome = true := by
  induction w generalizing p with
  | nil =>
    simp only [List.drop_nil] at h
    cases hm : matchAt0 S E [] with
    | none => rw [hm] at h; simp at h
    | some j => simp [findSpan, hm]
  | cons c rest ih =>
    cases p with
    | zero =>
      simp only [List.drop_zero] at h
      cases hm : matchAt0 S E (c :: rest) with
      | none => rw [hm] at h; simp at h
      | some j => simp [findSpan, hm]
    | succ p0 =>
      simp only [List.drop_succ_cons] at h
      have hsome := ih p0 h
      simp only [findSpan]
      cases hm : matchAt0 S E (c :: rest) with
      | some j => simp
      | none =>
        cases hrec : findSpan S E rest with
        | none => rw [hrec] at hsome; simp at hsome
        | some q => simp [hrec]

theorem findSpan_isSome_occursIn (S E s : Chars)
    (h : (findSpan S E s).isSome = true) : occursIn S s = true := by
  cases hf : findSpan S E s with
  | none => rw [hf] at h; simp at h
  | some p =>
    obtain ⟨i, j⟩ := p
    obtain ⟨g1, _, _, _⟩ := findSpan_some S E s i j hf
    have hS : leadsWith S (s.drop i) = true := matchAt0_leadsWith S E _ _ g1
    exact firstIdx_isSome_of_leadsWith S s i hS

/-! ### Claim C1 — one block per marker pair

The claim asserts that *both* apply scripts replace exactly the
inclusive span from the start marker to the first following end marker,
as a single match, leaving later occurrences of the marker pair
unmodified.  That is true of the macOS script (perl substitution without
the global flag) but false of the Windows script: the static .NET
`[regex]::Replace` in `Update-FileBlock` replaces **every**
non-overlapping occurrence of the marker pair. -/

/-- C1, counterexample.  On a file with two marker blocks
(start marker `S`, end marker `E`), the claim predicts that only the
first block is replaced (result `X SbE`); the PowerShell
`Update-FileBlock` instead replaces both (result `X X`), so the second
occurrence of the marker pair is modified.  The macOS script does
behave as the claim says. -/
theorem updateFileBlockPs1_global_counterexample :
    updateFileBlockPs1 "SaE SbE".toList "S".toList "E".toList "X".toList
        = "X X".toList ∧
    "SaE SbE".toList.take 0 ++ "X".toList ++ "SaE SbE".toList.drop 3
        = "X SbE".toList ∧
    updateFileBlockSh "SaE SbE".toList "S".toList "E".toList "X".toList
        = "X SbE".toList ∧
    updateFileBlockPs1 "SaE SbE".toList "S".toList "E".toList "X".toList
        ≠ "X SbE".toList := by
  refine ⟨by decide, by decide, by decide, by decide⟩

/-- C1, amended to what the code does (macOS script): when the
non-greedy pattern start-marker…end-marker has a leftmost match
`[i, j)` in the file, `update_file_block` rewrites the file to
`take i ++ block ++ drop j`: the replaced span starts at the leftmost
possible match position with the start marker and ends at the first
following end marker (non-greedy: no end-marker occurrence ends
earlier inside the span), and everything after the span — including
any further occurrences of the marker pair — is carried over verbatim
in `s.drop j`. -/
theorem updateFileBlockSh_replaces_first_span (s S E block : Chars) (i j : Nat)
    (h : findSpan S E s = some (i, j)) :
    updateFileBlockSh s S E block = s.take i ++ block ++ s.drop j ∧
    (∃ mid, s = s.take i ++ (S ++ (mid ++ (E ++ s.drop j))) ∧
        j = i + S.length + mid.length + E.length ∧
        (∀ k', k' < mid.length →
          leadsWith E ((mid ++ (E ++ s.drop j)).drop k') = false)) ∧
    (∀ i', i' < i → matchAt0 S E (s.drop i') = none) := by
  obtain ⟨g1, g2, g3, g4⟩ := findSpan_some S E s i j h
  obtain ⟨mid, hdecomp, hlen, hminE⟩ := matchAt0_some S E (s.drop i) (j - i) g1
  have hdd : (s.drop i).drop (j - i) = s.drop j := by
    rw [List.drop_drop]
    congr 1
    omega
  rw [hdd] at hdecomp hminE
  have hocc : occursIn S s = true := findSpan_isSome_occursIn S E s (by rw [h]; rfl)
  refine ⟨?_, ⟨mid, ?_, by omega, hminE⟩, g4⟩
  · simp only [updateFileBlockSh, hocc, if_true, h]
  · conv_lhs => rw [← List.take_append_drop i s, hdecomp]

/-- C1, witness: the amended theorem applied to a file with two
blocks; the leftmost span is `[4, 7)` and the suffix (containing the
second block) survives untouched. -/
theorem updateFileBlockSh_replaces_first_span_witness :
    findSpan "S".toList "E".toList "pre SxE post SyE".toList = some (4, 7) ∧
    updateFileBlockSh "pre SxE post SyE".toList "S".toList "E".toList "B".toList
        = "pre B post SyE".toList :=
  ⟨by decide,
    ((updateFileBlockSh_replaces_first_span "pre SxE post SyE".toList "S".toList
      "E".toList "B".toList 4 7 (by decide)).1).trans (by decide)⟩

/-! ### Claim C5 — append path when the start marker is absent -/

/-- C5: when the start marker does not occur in the file, both scripts
append a newline (CRLF for the Windows script), the supplied content
and a trailing newline, exactly once, leaving the pre-existing content
unchanged as a prefix; and when the supplied content carries the
markers (as the spec's "bracketed correctly" prescribes), a subsequent
application takes the replace path instead of appending again: the
macOS script's start-marker test now succeeds, and the Windows
script's pattern test now finds a match. -/
theorem updateFileBlock_appends_once_when_marker_absent (s S E block : Chars)
    (h : occursIn S s = false) :
    updateFileBlockSh s S E block = s ++ '\n' :: (block ++ ['\n']) ∧
    updateFileBlockPs1 s S E block = s ++ '\r' :: '\n' :: (block ++ ['\r', '\n']) ∧
    (occursIn S block = true →
      occursIn S (s ++ '\n' :: (block ++ ['\n'])) = true) ∧
    ((findSpan S E block).isSome = true →
      (findSpan S E (s ++ '\r' :: '\n' :: (block ++ ['\r', '\n']))).isSome = true) := by
  have hspan : (findSpan S E s).isSome = false := by
    cases hfs : (findSpan S E s).isSome with
    | false => rfl
    | true => rw [findSpan_isSome_occursIn S E s hfs] at h; cases h
  refine ⟨?_, ?_, ?_, ?_⟩
  · simp only [updateFileBlockSh, h]
    simp
  · simp only [updateFileBlockPs1, hspan]
    simp
  · intro hb
    have : s ++ '\n' :: (block ++ ['\n']) = (s ++ ['\n']) ++ block ++ ['\n'] := by
      simp
    rw [this]
    exact occursIn_append_inner S (s ++ ['\n']) block ['\n'] hb
  · intro hb
    cases hfb : findSpan S E block with
    | none => rw [hfb] at hb; simp at hb
    | some p =>
      obtain ⟨i, j⟩ := p
      obtain ⟨g1, _, g3, _⟩ := findSpan_some S E block i j hfb
      have hrw : s ++ '\r' :: '\n' :: (block ++ ['\r', '\n'])
          = (s ++ ['\r', '\n']) ++ (block ++ ['\r', '\n']) := by
        simp
      have hdrop : ((s ++ ['\r', '\n']) ++ (block ++ ['\r', '\n'])).drop
          ((s ++ ['\r', '\n']).length + i) = block.drop i ++ ['\r', '\n'] := by
        rw [drop_len_append, List.drop_append_of_le_length g3]
      have hm : (matchAt0 S E (((s ++ ['\r', '\n']) ++ (block ++ ['\r', '\n'])).drop
          ((s ++ ['\r', '\n']).length + i))).isSome = true := by
        rw [hdrop]
        exact matchAt0_append S E (block.drop i) ['\r', '\n'] (by rw [g1]; rfl)
      rw [hrw]
      exact findSpan_isSome_of_matchAt0 S E _ _ hm

/-- C5, witness: start marker absent from `body`, content bracketed by
the markers; the file gains exactly the newline-delimited block and a
re-application would take the replace path (both scripts). -/
theorem updateFileBlock_appends_once_witness :
    updateFileBlockSh "body".toList "S".toList "E".toList "S mid E".toList
        = "body".toList ++ '\n' :: ("S mid E".toList ++ ['\n']) ∧
    occursIn "S".toList ("body".toList ++ '\n' :: ("S mid E".toList ++ ['\n'])) = true ∧
    (findSpan "S".toList "E".toList
        ("body".toList ++ '\r' :: '\n' :: ("S mid E".toList ++ ['\r', '\n']))).isSome = true := by
  have hth := updateFileBlock_appends_once_when_marker_absent
    "body".toList "S".toList "E".toList "S mid E".toList (by decide)
  exact ⟨hth.1, hth.2.2.1 (by decide), hth.2.2.2 (by decide)⟩

/-! ## Payload path resolution (App.tsx)

`resolvePayloadSource` joins a payload-relative reference under the
payload root, passes absolute references through unchanged, and maps
empty or placeholder references to `''`.  The `string | undefined`
parameters of the TypeScript function are modelled as `String`, with
`""` playing the role of both `''` and `undefined` (the code only
tests them for falsiness). -/

/-- The whitespace class of JavaScript `String.prototype.trim`
(ASCII whitespace plus NBSP and the BOM; the remaining Unicode space
characters are not used anywhere in this development). -/
def isJsWs (c : Char) : Bool :=
  c = ' ' || c = '\t' || c = '\n' || c = '\r' || c = '\x0b' || c = '\x0c' ||
    c = '\u00A0' || c = '\uFEFF'

/-- JavaScript `.trim()`: strip leading and trailing whitespace. -/
def jsTrim (s : String) : String :=
  ⟨((s.toList.dropWhile isJsWs).reverse.dropWhile isJsWs).reverse⟩

/-- The separator class `[\\/]` used throughout App.tsx. -/
def isSep (c : Char) : Bool := c = '/' || c = '\\'

/-- `toBaseName` from App.tsx: strip trailing separators, take the text
after the last separator, default to `"file"` when that is empty. -/
def toBaseName (p : String) : String :=
  let cleaned := (p.toList.reverse.dropWhile isSep).reverse
  let base := (cleaned.reverse.takeWhile (fun c => !isSep c)).reverse
  if base = [] then "file" else ⟨base⟩

/-- Anchored tail of the placeholder pattern: at least one
non-`>` character followed by a `>`. -/
def afterLt : Chars → Bool
  | [] => false
  | c :: t => c ≠ '>' && t.contains '>'

/-- `placeholderPattern.test` from App.tsx: the regex `<[^>]+>` matches
somewhere in the string. -/
def placeholderTest : Chars → Bool
  | [] => false
  | c :: rest => (c = '<' && afterLt rest) || placeholderTest rest

/-- `isAbsolutePath` from App.tsx: drive-letter prefix `X:[\\/]`, UNC
prefix `\\`, or a leading `/`. -/
def isAbsolutePath (s : String) : Bool :=
  (match s.toList with
    | a :: b :: c :: _ => a.isAlpha && b = ':' && isSep c
    | _ => false)
  || leadsWith ['\\', '\\'] s.toList || leadsWith ['/'] s.toList

/-- Character-list core of `joinPathFragments`: strip the base's
trailing and the relative part's leading separators, then join with `\`
when the cleaned base contains a backslash and `/` otherwise. -/
def joinPathCore (b r : Chars) : Chars :=
  let baseClean := (b.reverse.dropWhile isSep).reverse
  let relClean := r.dropWhile isSep
  if baseClean = [] then relClean
  else if relClean = [] then baseClean
  else baseClean ++ (if baseClean.contains '\\' then '\\' else '/') :: relClean

/-- `joinPathFragments` from App.tsx. -/
def joinPathFragments (base rel : String) : String :=
  ⟨joinPathCore base.toList rel.toList⟩

/-- `resolvePayloadSource` from App.tsx. -/
def resolvePayloadSource (payloadDir rel : String) : String :=
  let cleanedRel := jsTrim rel
  if payloadDir = "" ∨ cleanedRel = "" then ""
  else if placeholderTest cleanedRel.toList then ""
  else if isAbsolutePath cleanedRel then cleanedRel
  else joinPathFragments payloadDir cleanedRel

/-! ### Path-semantic containment

To state what "resolves inside `payloadDir`" means we normalize paths:
split on separators, drop empty and `.` segments, and let `..` pop the
previous segment.  `insideDir base path` then says the normalized base
is an initial run of the normalized path. -/

/-- Split a path on separator characters (keeping empty pieces, like a
JS `split(/[\\/]/)`). -/
def splitSegs : Chars → List Chars
  | [] => [[]]
  | c :: rest =>
    if isSep c then [] :: splitSegs rest
    else
      match splitSegs rest with
      | s :: ss => (c :: s) :: ss
      | [] => [[c]]

/-- The `..` segment. -/
def dotdot : Chars := ['.', '.']

/-- The `.` segment. -/
def dotSeg : Chars := ['.']

/-- Segments that survive normalization (non-empty, not `.`). -/
def keepSeg (g : Chars) : Bool := !(g = [] || g = dotSeg)

/-- One step of path normalization over a reversed accumulator. -/
def normStep (acc : List Chars) (seg : Chars) : List Chars :=
  if keepSeg seg = false then acc
  else if seg = dotdot then
    match acc with
    | top :: acc0 => if top = dotdot then dotdot :: top :: acc0 else acc0
    | [] => [dotdot]
  else seg :: acc

/-- Normalize a segment list: drop empty and `.` segments, let `..`
pop. -/
def normSegs (segs : List Chars) : List Chars := (segs.foldl normStep []).reverse

/-- Initial-run test on segment lists. -/
def segsLead : List Chars → List Chars → Bool
  | [], _ => true
  | _ :: _, [] => false
  | p :: ps, c :: cs => p = c && segsLead ps cs

/-- `insideDir base path`: after normalization, `path` lies below
`base`. -/
def insideDir (base path : Chars) : Bool :=
  segsLead (normSegs (splitSegs base)) (normSegs (splitSegs path))

theorem splitSegs_cons_sep (c : Char) (l : Chars) (hc : isSep c = true) :
    splitSegs (c :: l) = [] :: splitSegs l := by
  simp [splitSegs, hc]

theorem splitSegs_cons_nosep (c : Char) (l : Chars) (hc : isSep c = false) :
    splitSegs (c :: l) =
      match splitSegs l with
      | s :: ss => (c :: s) :: ss
      | [] => [[c]] := by
  simp [splitSegs, hc]

theorem splitSegs_ne_nil (l : Chars) : splitSegs l ≠ [] := by
  cases l with
  | nil => simp [splitSegs]
  | cons c rest =>
    simp only [splitSegs]
    split
    · simp
    · rcases h : splitSegs rest with _ | ⟨s, ss⟩ <;> simp

theorem splitSegs_append_sep (u v : Chars) (c : Char) (hc : isSep c = true) :
    splitSegs (u ++ c :: v) = splitSegs u ++ splitSegs v := by
  induction u with
  | nil =>
    rw [List.nil_append, splitSegs_cons_sep c v hc]
    rfl
  | cons d u0 ih =>
    rw [List.cons_append]
    cases hd : isSep d with
    | true =>
      rw [splitSegs_cons_sep d _ hd, ih, splitSegs_cons_sep d u0 hd]
      rfl
    | false =>
      rw [splitSegs_cons_nosep d _ hd, ih, splitSegs_cons_nosep d u0 hd]
      cases hs : splitSegs u0 with
      | nil => exact absurd hs (splitSegs_ne_nil u0)
      | cons s ss => simp

theorem splitSegs_all_sep (l : Chars) (h : ∀ c ∈ l, isSep c = true) :
    splitSegs l = List.replicate (l.length + 1) [] := by
  induction l with
  | nil => simp [splitSegs]
  | cons c rest ih =>
    have hc : isSep c = true := h c (List.mem_cons_self _ _)
    have hrest : ∀ d ∈ rest, isSep d = true := fun d hd => h d (List.mem_cons_of_mem _ hd)
    simp [splitSegs, hc, ih hrest, List.replicate]

theorem splitSegs_append_all_sep (u seps : Chars) (h : ∀ c ∈ seps, isSep c = true) :
    splitSegs (u ++ seps) = splitSegs u ++ List.replicate seps.length [] := by
  cases seps with
  | nil => simp
  | cons c rest =>
    have hc : isSep c = true := h c (List.mem_cons_self _ _)
    have hrest : ∀ d ∈ rest, isSep d = true := fun d hd => h d (List.mem_cons_of_mem _ hd)
    rw [splitSegs_append_sep u rest c hc, splitSegs_all_sep rest hrest]
    simp

theorem splitSegs_dropWhile (l : Chars) :
    ∃ n, splitSegs l = List.replicate n [] ++ splitSegs (l.dropWhile isSep) := by
  induction l with
  | nil => exact ⟨0, by simp⟩
  | cons c rest ih =>
    by_cases hc : isSep c = true
    · obtain ⟨n, hn⟩ := ih
      refine ⟨n + 1, ?_⟩
      simp [splitSegs, hc, List.dropWhile_cons, hn, List.replicate]
    · exact ⟨0, by simp [List.dropWhile_cons, hc]⟩

theorem foldl_normStep_no_dotdot (ys : List Chars) :
    ∀ acc, (∀ g ∈ ys, g ≠ dotdot) →
      ys.foldl normStep acc = (ys.filter keepSeg).reverse ++ acc := by
  induction ys with
  | nil => intro acc _; simp
  | cons seg rest ih =>
    intro acc h
    have hseg : seg ≠ dotdot := h seg (List.mem_cons_self _ _)
    have hrest : ∀ g ∈ rest, g ≠ dotdot := fun g hg => h g (List.mem_cons_of_mem _ hg)
    by_cases hk : keepSeg seg = true
    · have hstep : normStep acc seg = seg :: acc := by
        simp [normStep, hk, hseg]
      simp only [List.foldl_cons, hstep, ih _ hrest]
      simp [List.filter_cons, hk]
    · have hk' : keepSeg seg = false := Bool.eq_false_iff.mpr hk
      have hstep : normStep acc seg = acc := by simp [normStep, hk']
      simp only [List.foldl_cons, hstep, ih _ hrest]
      simp [List.filter_cons, hk']

theorem normSegs_append_no_dotdot (B R : List Chars) (h : ∀ g ∈ R, g ≠ dotdot) :
    normSegs (B ++ R) = normSegs B ++ R.filter keepSeg := by
  unfold normSegs
  rw [List.foldl_append, foldl_normStep_no_dotdot R _ h, List.reverse_append]
  simp

theorem segsLead_self_append (l t : List Chars) : segsLead l (l ++ t) = true := by
  induction l with
  | nil => rfl
  | cons p ps ih => simp [segsLead, ih]

/-- Separator-run suffixes do not change the normalized segments. -/
theorem normSegs_trailing_seps (u seps : Chars) (h : ∀ c ∈ seps, isSep c = true) :
    normSegs (splitSegs (u ++ seps)) = normSegs (splitSegs u) := by
  rw [splitSegs_append_all_sep u seps h]
  have hnd : ∀ g ∈ List.replicate seps.length ([] : Chars), g ≠ dotdot := by
    intro g hg
    rw [List.eq_of_mem_replicate hg]
    intro hc
    cases hc
  rw [normSegs_append_no_dotdot _ _ hnd]
  have hflt : List.filter keepSeg (List.replicate seps.length ([] : Chars)) = [] := by
    refine List.filter_eq_nil_iff.mpr ?_
    intro g hg
    rw [List.eq_of_mem_replicate hg]
    simp [keepSeg]
  rw [hflt, List.append_nil]

theorem toList_mk (l : List Char) : (⟨l⟩ : String).toList = l := rfl

theorem joinPathCore_base_nil (b r : Chars)
    (h : (b.reverse.dropWhile isSep).reverse = []) :
    joinPathCore b r = r.dropWhile isSep := by
  simp only [joinPathCore]
  rw [if_pos h]

theorem joinPathCore_rel_nil (b r : Chars)
    (hb : (b.reverse.dropWhile isSep).reverse ≠ [])
    (hr : r.dropWhile isSep = []) :
    joinPathCore b r = (b.reverse.dropWhile isSep).reverse := by
  simp only [joinPathCore]
  rw [if_neg hb, if_pos hr]

theorem joinPathCore_join (b r : Chars)
    (hb : (b.reverse.dropWhile isSep).reverse ≠ [])
    (hr : r.dropWhile isSep ≠ []) :
    joinPathCore b r =
      (b.reverse.dropWhile isSep).reverse ++
        (if ((b.reverse.dropWhile isSep).reverse).contains '\\' then '\\' else '/') ::
          r.dropWhile isSep := by
  simp only [joinPathCore]
  rw [if_neg hb, if_neg hr]

/-- The textual join places the (normalized) reference below the base:
for any `..`-free reference the joined path stays inside the base
directory. -/
theorem joinPathCore_inside (b r : Chars)
    (hnd : ∀ g ∈ splitSegs r, g ≠ dotdot) :
    insideDir b (joinPathCore b r) = true := by
  have hndrel : ∀ g ∈ splitSegs (r.dropWhile isSep), g ≠ dotdot := by
    obtain ⟨n, hn⟩ := splitSegs_dropWhile r
    intro g hg
    exact hnd g (by rw [hn]; exact List.mem_append_right _ hg)
  have hbsplit : b =
      (b.reverse.dropWhile isSep).reverse ++ (b.reverse.takeWhile isSep).reverse := by
    conv_lhs => rw [← List.reverse_reverse b,
      ← List.takeWhile_append_dropWhile (p := isSep) (l := b.reverse)]
    rw [List.reverse_append]
  have htrsep : ∀ c ∈ (b.reverse.takeWhile isSep).reverse, isSep c = true := by
    intro c hcmem
    rw [List.mem_reverse] at hcmem
    exact List.mem_takeWhile_imp hcmem
  have hnormb : normSegs (splitSegs b) =
      normSegs (splitSegs ((b.reverse.dropWhile isSep).reverse)) := by
    conv_lhs => rw [hbsplit]
    exact normSegs_trailing_seps _ _ htrsep
  simp only [insideDir]
  by_cases hbase : (b.reverse.dropWhile isSep).reverse = []
  · -- all-separator base: its normalized form is empty and leads
    -- everything
    rw [joinPathCore_base_nil b r hbase, hnormb, hbase]
    rfl
  · by_cases hrelnil : r.dropWhile isSep = []
    · rw [joinPathCore_rel_nil b r hbase hrelnil, hnormb]
      have hself := segsLead_self_append
        (normSegs (splitSegs ((b.reverse.dropWhile isSep).reverse))) []
      simpa using hself
    · rw [joinPathCore_join b r hbase hrelnil]
      have hsep : isSep (if ((b.reverse.dropWhile isSep).reverse).contains '\\'
          then '\\' else '/') = true := by
        split <;> decide
      rw [splitSegs_append_sep _ _ _ hsep,
        normSegs_append_no_dotdot _ _ hndrel, hnormb]
      exact segsLead_self_append _ _

/-! ### Claim C8 — payload references and the payloadDir boundary

The claim says every payload reference resolves inside `payloadDir`,
with the sole exception of an explicit absolute path when
`advancedMode` is set, and that out-of-boundary resolutions are
rejected.  The code falsifies both halves: `resolvePayloadSource` takes
no `advancedMode` input at all and returns *any* absolute reference
unchanged, and a relative reference containing `..` is joined under
`payloadDir` textually — landing outside the boundary — rather than
being rejected. -/

/-- C8, counterexample.  `../secret` resolves to
`payloads/../secret`, which is outside the `payloads` boundary, and is
returned (not rejected); the absolute reference `C:\evil` is returned
unchanged even though `resolvePayloadSource` has no `advancedMode`
parameter that could gate it. -/
theorem resolvePayloadSource_escape_counterexample :
    resolvePayloadSource "payloads" "../secret" = "payloads/../secret" ∧
    resolvePayloadSource "payloads" "../secret" ≠ "" ∧
    insideDir "payloads".toList "payloads/../secret".toList = false ∧
    isAbsolutePath "C:\\evil" = true ∧
    resolvePayloadSource "payloads" "C:\\evil" = "C:\\evil" ∧
    insideDir "payloads".toList "C:\\evil".toList = false := by
  refine ⟨by decide, by decide, by decide, by decide, by decide, by decide⟩

/-- C8, amended to what the code does: for a non-empty payload root and
a trimmed, non-empty, placeholder-free reference, an absolute reference
is returned unchanged (independently of any `advancedMode` state, which
the resolver does not consult), and a relative reference is joined
textually under `payloadDir`; the joined result is guaranteed to lie
inside the `payloadDir` boundary whenever the reference contains no
`..` segment (the code performs no `..` normalization or rejection). -/
theorem resolvePayloadSource_boundary (payloadDir rel : String)
    (hpd : payloadDir ≠ "") (hc : jsTrim rel ≠ "")
    (hph : placeholderTest (jsTrim rel).toList = false) :
    (isAbsolutePath (jsTrim rel) = true →
      resolvePayloadSource payloadDir rel = jsTrim rel) ∧
    (isAbsolutePath (jsTrim rel) = false →
      resolvePayloadSource payloadDir rel = joinPathFragments payloadDir (jsTrim rel) ∧
      ((∀ g ∈ splitSegs (jsTrim rel).toList, g ≠ dotdot) →
        insideDir payloadDir.toList
          (joinPathFragments payloadDir (jsTrim rel)).toList = true)) := by
  have hph' : placeholderTest (jsTrim rel).data = false := hph
  constructor
  · intro habs
    simp [resolvePayloadSource, hpd, hc, hph, hph', habs]
  · intro habs
    refine ⟨by simp [resolvePayloadSource, hpd, hc, hph, hph', habs], ?_⟩
    intro hnd
    exact joinPathCore_inside payloadDir.toList (jsTrim rel).toList hnd

/-- C8, witness: a plain relative reference resolves under the payload
root and lands inside the boundary. -/
theorem resolvePayloadSource_boundary_witness :
    resolvePayloadSource "payloads" " themes/a.css " = "payloads/themes/a.css" ∧
    insideDir "payloads".toList "payloads/themes/a.css".toList = true := by
  have h := resolvePayloadSource_boundary "payloads" " themes/a.css "
    (by decide) (by decide) (by decide)
  have h2 := h.2 (by decide)
  refine ⟨h2.1.trans (by decide), ?_⟩
  have h3 := h2.2 (by decide)
  have hj : joinPathFragments "payloads" (jsTrim " themes/a.css ") = "payloads/themes/a.css" := by
    decide
  rw [hj] at h3
  exact h3

/-! ## JavaScript value model

The builder manipulates dynamic JS values: `Number(...)` coercions,
`JSON.parse` / `JSON.stringify`, `String(...)` coercions and plain
objects used as string records.  We model numbers exactly as rationals:
every value produced by `Number()` from a decimal/hex/octal/binary
literal is a terminating decimal, for which exact-rational printing
agrees with JS double printing for all inputs of interest (double
rounding of over-precise literals is not modelled). -/

/-- Fuel-based Euclid gcd (kernel-reducible, unlike `Nat.gcd`'s
well-founded recursion). -/
def natGcdF : Nat → Nat → Nat → Nat
  | 0, a, _ => a
  | fuel + 1, a, b => if b = 0 then a else natGcdF fuel b (a % b)

/-- An exact terminating decimal in lowest terms (numerator and
positive denominator).  All finite values `Number()` can produce are of
this shape, and on them exact printing agrees with JS double
printing. -/
structure DecFrac where
  num : Int
  den : Nat
deriving DecidableEq

/-- Build the lowest-terms fraction for `±M·10^ex`. -/
def mkDecFrac (M : Nat) (ex : Int) (neg : Bool) : DecFrac :=
  if 0 ≤ ex then
    let n : Int := (M * 10 ^ ex.toNat : Nat)
    { num := if neg then -n else n, den := 1 }
  else
    let d := 10 ^ (-ex).toNat
    let g := natGcdF (d + 1) M d
    let n : Int := (M / g : Nat)
    { num := if neg then -n else n, den := d / g }

/-- A JS number: finite (exact decimal), signed infinity, or NaN. -/
inductive JsNum where
  | finite (f : DecFrac)
  | infinite (neg : Bool)
  | nanv
deriving DecidableEq

/-- Decimal digit value. -/
def digitVal (c : Char) : Option Nat :=
  if c.isDigit then some (c.toNat - 48) else none

/-- Hexadecimal digit value. -/
def hexVal (c : Char) : Option Nat :=
  if c.isDigit then some (c.toNat - 48)
  else if 'a' ≤ c ∧ c ≤ 'f' then some (c.toNat - 87)
  else if 'A' ≤ c ∧ c ≤ 'F' then some (c.toNat - 55)
  else none

/-- Octal digit value. -/
def octVal (c : Char) : Option Nat :=
  if '0' ≤ c ∧ c ≤ '7' then some (c.toNat - 48) else none

/-- Binary digit value. -/
def binVal (c : Char) : Option Nat :=
  if c = '0' then some 0 else if c = '1' then some 1 else none

/-- Consume a maximal digit run: accumulated value, digit count, rest. -/
def takeDigitsAux (p : Char → Option Nat) (base : Nat) :
    Chars → Nat → Nat → Nat × Nat × Chars
  | [], v, n => (v, n, [])
  | c :: cs, v, n =>
    match p c with
    | some d => takeDigitsAux p base cs (v * base + d) (n + 1)
    | none => (v, n, c :: cs)

def takeDigits (p : Char → Option Nat) (base : Nat) (l : Chars) : Nat × Nat × Chars :=
  takeDigitsAux p base l 0 0

/-- Optional exponent part `e`/`E` `[+-]` digits of a decimal literal;
returns exponent `0` when the input does not start with `e`/`E`. -/
def parseExpPart : Chars → Option (Int × Chars)
  | [] => some (0, [])
  | c :: cs =>
    if c = 'e' ∨ c = 'E' then
      match cs with
      | '+' :: t =>
        match takeDigits digitVal 10 t with
        | (v, n, rest) => if n = 0 then none else some ((v : Int), rest)
      | '-' :: t =>
        match takeDigits digitVal 10 t with
        | (v, n, rest) => if n = 0 then none else some (-(v : Int), rest)
      | t =>
        match takeDigits digitVal 10 t with
        | (v, n, rest) => if n = 0 then none else some ((v : Int), rest)
    else some (0, c :: cs)

/-- Unsigned decimal literal of `Number()`:
`digits [. digits] [exp]` or `. digits [exp]`, consuming the whole
input; result is `(mantissa, decimal exponent)` for mantissa·10^exp. -/
def parseUnsignedDec (l : Chars) : Option (Nat × Int) :=
  match l with
  | '.' :: cs =>
    match takeDigits digitVal 10 cs with
    | (fv, fn, rest) =>
      if fn = 0 then none
      else
        match parseExpPart rest with
        | some (e, []) => some (fv, e - fn)
        | _ => none
  | _ =>
    match takeDigits digitVal 10 l with
    | (iv, inn, rest) =>
      if inn = 0 then none
      else
        match rest with
        | '.' :: cs =>
          match takeDigits digitVal 10 cs with
          | (fv, fn, rest2) =>
            match parseExpPart rest2 with
            | some (e, []) => some (iv * 10 ^ fn + fv, e - fn)
            | _ => none
        | _ =>
          match parseExpPart rest with
          | some (e, []) => some (iv, e)
          | _ => none

/-- Radix-prefixed integer literal body (after `0x`/`0o`/`0b`). -/
def parseRadix (p : Char → Option Nat) (base : Nat) (cs : Chars) : JsNum :=
  match takeDigits p base cs with
  | (v, n, rest) => if n = 0 ∨ rest ≠ [] then .nanv else .finite ⟨(v : Int), 1⟩

/-- Signed decimal body of `Number()` (sign, then `Infinity` or a
decimal literal). -/
def parseDecBody (cs : Chars) (neg : Bool) : JsNum :=
  if cs = "Infinity".toList then .infinite neg
  else
    match parseUnsignedDec cs with
    | some (M, ex) => .finite (mkDecFrac M ex neg)
    | none => .nanv

def parseSignedDec : Chars → JsNum
  | '+' :: t => parseDecBody t false
  | '-' :: t => parseDecBody t true
  | t => parseDecBody t false

/-- JavaScript `Number(string)`: trim, empty means `0`, then a decimal
literal (optionally signed, possibly `Infinity`) or an unsigned
`0x`/`0o`/`0b` literal; anything else is NaN. -/
def jsStringToNumber (s : String) : JsNum :=
  match (jsTrim s).toList with
  | [] => .finite ⟨0, 1⟩
  | '0' :: 'x' :: cs => parseRadix hexVal 16 cs
  | '0' :: 'X' :: cs => parseRadix hexVal 16 cs
  | '0' :: 'o' :: cs => parseRadix octVal 8 cs
  | '0' :: 'O' :: cs => parseRadix octVal 8 cs
  | '0' :: 'b' :: cs => parseRadix binVal 2 cs
  | '0' :: 'B' :: cs => parseRadix binVal 2 cs
  | t => parseSignedDec t

/-- `Number.isNaN(Number(s))`, the validation test of `handleBuild` and
the `validation` memo. -/
def jsNumberIsNaN (s : String) : Bool := jsStringToNumber s = JsNum.nanv

/-- Kernel-friendly decimal printing of a natural number. -/
def natDigitsAux : Nat → Nat → Chars
  | 0, _ => []
  | fuel + 1, n => if n = 0 then [] else natDigitsAux fuel (n / 10) ++ [Char.ofNat (48 + n % 10)]

def natToStr (n : Nat) : String :=
  if n = 0 then "0" else ⟨natDigitsAux (n + 1) n⟩

/-- Number of times `p` divides `n` (with fuel). -/
def countFactor : Nat → Nat → Nat → Nat
  | 0, _, _ => 0
  | fuel + 1, p, n => if 2 ≤ p ∧ n ≠ 0 ∧ n % p = 0 then countFactor fuel p (n / p) + 1 else 0

/-- Left-pad with zeros to `k` characters. -/
def padZeros (s : String) (k : Nat) : String :=
  ⟨List.replicate (k - s.toList.length) '0' ++ s.toList⟩

/-- JavaScript `String(number)`.  Finite values are printed as exact
terminating decimals (the case for every number `Number()` can
produce from a literal; shortest-double printing of other rationals is
out of scope and such values cannot arise here). -/
def jsNumToStr : JsNum → String
  | .nanv => "NaN"
  | .infinite true => "-Infinity"
  | .infinite false => "Infinity"
  | .finite f =>
    if f.num = 0 then "0"
    else
      let sign : String := if f.num < 0 then "-" else ""
      let num := f.num.natAbs
      let den := f.den
      if den = 1 then sign ++ natToStr num
      else
        let a := countFactor den 2 den
        let b := countFactor den 5 den
        if den = 2 ^ a * 5 ^ b then
          let k := max a b
          let scaled := num * 10 ^ k / den
          let ip := scaled / 10 ^ k
          let fp := scaled % 10 ^ k
          sign ++ natToStr ip ++ "." ++ padZeros (natToStr fp) k
        else
          sign ++ natToStr num ++ "/" ++ natToStr den

/-- A JavaScript value (the dynamic `any` of the manifest layer). -/
inductive JsVal where
  | vnull
  | vbool (b : Bool)
  | vnum (n : JsNum)
  | vstr (s : String)
  | varr (elems : List JsVal)
  | vobj (fields : List (String × JsVal))

/-- JS object property creation/assignment: updating an existing key
keeps its position, a new key is appended. -/
def jsAssign {α : Type} : List (String × α) → String → α → List (String × α)
  | [], k, v => [(k, v)]
  | (k', v') :: rest, k, v =>
    if k' = k then (k', v) :: rest else (k', v') :: jsAssign rest k v

/-- Build a JS object record by successive assignment (the `reduce`
pattern used for `replacements` and the object builder of
`JSON.parse`). -/
def jsRecordFromPairs {α : Type} (l : List (String × α)) : List (String × α) :=
  l.foldl (fun r kv => jsAssign r kv.1 kv.2) []

/-- Canonical array-index keys (`"0"`, `"17"`, …): digits only, no
leading zero, below `2^32 - 1`. -/
def isArrayIndexKey (s : String) : Option Nat :=
  match s.toList with
  | [] => none
  | l =>
    if l.all Char.isDigit ∧ (l = ['0'] ∨ l.head? ≠ some '0') then
      let n := l.foldl (fun a c => a * 10 + (c.toNat - 48)) 0
      if n < 4294967295 then some n else none
    else none

def insertByKeyNum {α : Type} (kv : String × α) : List (String × α) → List (String × α)
  | [] => [kv]
  | kv' :: rest =>
    if (isArrayIndexKey kv.1).getD 0 ≤ (isArrayIndexKey kv'.1).getD 0 then kv :: kv' :: rest
    else kv' :: insertByKeyNum kv rest

/-- JS own-property enumeration order (`Object.keys`/`Object.entries`/
`JSON.stringify`): integer-like keys first in ascending numeric order,
then the remaining keys in creation order. -/
def jsEntriesOrder {α : Type} (fields : List (String × α)) : List (String × α) :=
  (fields.filter (fun kv => (isArrayIndexKey kv.1).isSome)).foldr insertByKeyNum [] ++
    fields.filter (fun kv => (isArrayIndexKey kv.1).isNone)

mutual

/-- JavaScript `String(value)` (no `undefined` in this model). -/
def jsToString : JsVal → String
  | .vnull => "null"
  | .vbool true => "true"
  | .vbool false => "false"
  | .vnum n => jsNumToStr n
  | .vstr s => s
  | .varr l => String.intercalate "," (jsToStringElems l)
  | .vobj _ => "[object Object]"

def jsToStringElems : List JsVal → List String
  | [] => []
  | v :: vs =>
    (match v with
      | .vnull => ""
      | w => jsToString w) :: jsToStringElems vs

end

/-! ### JSON.parse and JSON.stringify(v, null, 2) -/

/-- JSON whitespace. -/
def jsonWs (c : Char) : Bool := c = ' ' || c = '\t' || c = '\n' || c = '\r'

def lbrace : Char := Char.ofNat 123

def rbrace : Char := Char.ofNat 125

/-- Four hex digits to a code point. -/
def hex4 (a b c d : Char) : Option Nat :=
  match hexVal a, hexVal b, hexVal c, hexVal d with
  | some x, some y, some z, some w => some (((x * 16 + y) * 16 + z) * 16 + w)
  | _, _, _, _ => none

/-- Single-character JSON escapes. -/
def jsonUnescape (e : Char) : Option Char :=
  if e = '"' then some '"'
  else if e = '\\' then some '\\'
  else if e = '/' then some '/'
  else if e = 'b' then some (Char.ofNat 8)
  else if e = 'f' then some (Char.ofNat 12)
  else if e = 'n' then some '\n'
  else if e = 'r' then some '\r'
  else if e = 't' then some '\t'
  else none

/-- Body of a JSON string after the opening quote: content and rest
after the closing quote.  Control characters are rejected; `\uXXXX`
builds the character directly (lone surrogates are out of scope). -/
def parseJsonStrBody : Nat → Chars → Option (Chars × Chars)
  | 0, _ => none
  | fuel + 1, l =>
    match l with
    | [] => none
    | '"' :: rest => some ([], rest)
    | '\\' :: e :: rest =>
      if e = 'u' then
        match rest with
        | h1 :: h2 :: h3 :: h4 :: rest2 =>
          match hex4 h1 h2 h3 h4 with
          | some code =>
            match parseJsonStrBody fuel rest2 with
            | some (s, r) => some (Char.ofNat code :: s, r)
            | none => none
          | none => none
        | _ => none
      else
        match jsonUnescape e with
        | some c =>
          match parseJsonStrBody fuel rest with
          | some (s, r) => some (c :: s, r)
          | none => none
        | none => none
    | c :: rest =>
      if c.toNat < 32 then none
      else
        match parseJsonStrBody fuel rest with
        | some (s, r) => some (c :: s, r)
        | none => none

/-- JSON number tail after the integer part: optional fraction and
exponent. -/
def parseJsonNumTail (iv : Nat) (l : Chars) (neg : Bool) : Option (DecFrac × Chars) :=
  match l with
  | '.' :: cs =>
    match takeDigits digitVal 10 cs with
    | (fv, fn, rest) =>
      if fn = 0 then none
      else
        match parseExpPart rest with
        | some (e, r) => some (mkDecFrac (iv * 10 ^ fn + fv) (e - fn) neg, r)
        | none => none
  | _ =>
    match parseExpPart l with
    | some (e, r) => some (mkDecFrac iv e neg, r)
    | none => none

/-- JSON number: `-? (0 | [1-9]digits) frac? exp?` (no leading `+`, no
leading zeros, no bare `.5`). -/
def parseJsonNum (l : Chars) : Option (DecFrac × Chars) :=
  match l with
  | '-' :: t =>
    (match t with
      | '0' :: rest => parseJsonNumTail 0 rest true
      | c :: _ =>
        if c.isDigit then
          match takeDigits digitVal 10 t with
          | (iv, _, r) => parseJsonNumTail iv r true
        else none
      | [] => none)
  | '0' :: rest => parseJsonNumTail 0 rest false
  | c :: _ =>
    if c.isDigit then
      match takeDigits digitVal 10 l with
      | (iv, _, r) => parseJsonNumTail iv r false
    else none
  | [] => none

mutual

/-- One JSON value (recursive descent with fuel). -/
def parseJsonVal : Nat → Chars → Option (JsVal × Chars)
  | 0, _ => none
  | fuel + 1, l =>
    match l.dropWhile jsonWs with
    | 'n' :: 'u' :: 'l' :: 'l' :: rest => some (.vnull, rest)
    | 't' :: 'r' :: 'u' :: 'e' :: rest => some (.vbool true, rest)
    | 'f' :: 'a' :: 'l' :: 's' :: 'e' :: rest => some (.vbool false, rest)
    | '"' :: rest =>
      (match parseJsonStrBody fuel rest with
        | some (s, r) => some (.vstr ⟨s⟩, r)
        | none => none)
    | '[' :: rest =>
      (match rest.dropWhile jsonWs with
        | ']' :: r3 => some (.varr [], r3)
        | _ =>
          match parseJsonElems fuel rest with
          | some (es, r3) => some (.varr es, r3)
          | none => none)
    | c :: rest =>
      if c = lbrace then
        match rest.dropWhile jsonWs with
        | d :: r3 =>
          if d = rbrace then some (.vobj [], r3)
          else
            match parseJsonMembers fuel rest with
            | some (fs, r4) => some (.vobj (jsRecordFromPairs fs), r4)
            | none => none
        | [] => none
      else
        match parseJsonNum (c :: rest) with
        | some (f, r) => some (.vnum (.finite f), r)
        | none => none
    | [] => none

/-- Array elements, consuming the closing bracket. -/
def parseJsonElems : Nat → Chars → Option (List JsVal × Chars)
  | 0, _ => none
  | fuel + 1, l =>
    match parseJsonVal fuel l with
    | none => none
    | some (v, r) =>
      match r.dropWhile jsonWs with
      | ',' :: r3 =>
        (match parseJsonElems fuel r3 with
          | some (vs, r4) => some (v :: vs, r4)
          | none => none)
      | ']' :: r3 => some ([v], r3)
      | _ => none

/-- Object members, consuming the closing brace. -/
def parseJsonMembers : Nat → Chars → Option (List (String × JsVal) × Chars)
  | 0, _ => none
  | fuel + 1, l =>
    match l.dropWhile jsonWs with
    | '"' :: rest =>
      (match parseJsonStrBody fuel rest with
        | none => none
        | some (k, r) =>
          match r.dropWhile jsonWs with
          | ':' :: r3 =>
            (match parseJsonVal fuel r3 with
              | none => none
              | some (v, r4) =>
                match r4.dropWhile jsonWs with
                | ',' :: r6 =>
                  (match parseJsonMembers fuel r6 with
                    | some (fs, r7) => some ((⟨k⟩, v) :: fs, r7)
                    | none => none)
                | d :: r6 => if d = rbrace then some ([(⟨k⟩, v)], r6) else none
                | [] => none)
          | _ => none)
    | _ => none

end

/-- `JSON.parse(s)`: the whole (whitespace-trimmed) input must be one
JSON value.  Duplicate object keys follow assignment semantics (last
value wins, first position kept). -/
def jsonParseJS (s : String) : Option JsVal :=
  match parseJsonVal (2 * s.toList.length + 4) s.toList with
  | some (v, rest) => if rest.dropWhile jsonWs = [] then some v else none
  | none => none

def hexDigitChar (n : Nat) : Char :=
  if n < 10 then Char.ofNat (48 + n) else Char.ofNat (87 + n)

/-- JSON string-character escaping of `JSON.stringify`. -/
def jsonEscapeChar (c : Char) : Chars :=
  if c = '"' then ['\\', '"']
  else if c = '\\' then ['\\', '\\']
  else if c = '\n' then ['\\', 'n']
  else if c = '\r' then ['\\', 'r']
  else if c = '\t' then ['\\', 't']
  else if c = Char.ofNat 8 then ['\\', 'b']
  else if c = Char.ofNat 12 then ['\\', 'f']
  else if c.toNat < 32 then
    '\\' :: 'u' :: '0' :: '0' :: hexDigitChar (c.toNat / 16) :: [hexDigitChar (c.toNat % 16)]
  else [c]

def jsonQuote (s : String) : Chars :=
  '"' :: s.toList.foldr (fun c acc => jsonEscapeChar c ++ acc) ['"']

def indentChars (n : Nat) : Chars := List.replicate (2 * n) ' '

mutual

/-- `JSON.stringify(v, null, 2)` with fuel (≥ node count). -/
def stringifyP : Nat → Nat → JsVal → Chars
  | 0, _, _ => []
  | fuel + 1, ind, v =>
    match v with
    | .vnull => 'n' :: 'u' :: 'l' :: ['l']
    | .vbool true => 't' :: 'r' :: 'u' :: ['e']
    | .vbool false => 'f' :: 'a' :: 'l' :: 's' :: ['e']
    | .vnum (.finite f) => (jsNumToStr (.finite f)).toList
    | .vnum _ => 'n' :: 'u' :: 'l' :: ['l']
    | .vstr s => jsonQuote s
    | .varr [] => '[' :: [']']
    | .varr (x :: xs) =>
      '[' :: '\n' :: stringifyItemsP fuel (ind + 1) (x :: xs) ++
        '\n' :: (indentChars ind ++ [']'])
    | .vobj [] => [lbrace, rbrace]
    | .vobj (f :: fs) =>
      lbrace :: '\n' :: stringifyMembersP fuel (ind + 1) (jsEntriesOrder (f :: fs)) ++
        '\n' :: (indentChars ind ++ [rbrace])

def stringifyItemsP : Nat → Nat → List JsVal → Chars
  | 0, _, _ => []
  | fuel + 1, ind, l =>
    match l with
    | [] => []
    | [x] => indentChars ind ++ stringifyP fuel ind x
    | x :: xs =>
      indentChars ind ++ stringifyP fuel ind x ++ ',' :: '\n' :: stringifyItemsP fuel ind xs

def stringifyMembersP : Nat → Nat → List (String × JsVal) → Chars
  | 0, _, _ => []
  | fuel + 1, ind, l =>
    match l with
    | [] => []
    | [(k, v)] => indentChars ind ++ jsonQuote k ++ ':' :: ' ' :: stringifyP fuel ind v
    | (k, v) :: fs =>
      indentChars ind ++ jsonQuote k ++ ':' :: ' ' :: stringifyP fuel ind v ++
        ',' :: '\n' :: stringifyMembersP fuel ind fs

end

mutual

/-- Node count of a JS value (fuel bound for the stringifier). -/
def jsize : JsVal → Nat
  | .vnull => 1
  | .vbool _ => 1
  | .vnum _ => 1
  | .vstr _ => 1
  | .varr l => 1 + jsizeL l
  | .vobj fs => 1 + jsizeF fs

def jsizeL : List JsVal → Nat
  | [] => 1
  | v :: vs => 1 + jsize v + jsizeL vs

def jsizeF : List (String × JsVal) → Nat
  | [] => 1
  | kv :: fs => 1 + jsize kv.2 + jsizeF fs

end

/-- `JSON.stringify(v, null, 2)`. -/
def jsonStringifyPretty (v : JsVal) : String := ⟨stringifyP (jsize v + 1) 0 v⟩

/-! ## Builder step model (App.tsx `Dashboard`)

`UiStep` mirrors the TypeScript tagged union.  The UI-only random `id`
is omitted: the code uses it only as a React key and as the key of the
validation issue map. -/

inductive ValueType where
  | vtString
  | vtNumber
  | vtBoolean
  | vtJson
deriving DecidableEq

structure CopyStepData where
  enabled : Bool
  payloadSource : String
  payloadRel : String
  dest : String
deriving DecidableEq

structure ReplacementPair where
  key : String
  value : String
deriving DecidableEq

structure PatchBlockStepData where
  enabled : Bool
  file : String
  startMarker : String
  endMarker : String
  contentSource : String
  contentRel : String
  replacements : List ReplacementPair
deriving DecidableEq

structure SetJsonValueStepData where
  enabled : Bool
  file : String
  keyPath : String
  valueType : ValueType
  valueRaw : String
  valueBool : Bool
deriving DecidableEq

structure Base64EmbedStepData where
  enabled : Bool
  file : String
  placeholder : String
  inputSource : String
  inputRel : String
deriving DecidableEq

structure RunCommandStepData where
  enabled : Bool
  command : String
  args : String
deriving DecidableEq

inductive UiStep where
  | copy (d : CopyStepData)
  | patchBlock (d : PatchBlockStepData)
  | setJsonValue (d : SetJsonValueStepData)
  | base64Embed (d : Base64EmbedStepData)
  | runCommand (d : RunCommandStepData)
deriving DecidableEq

/-- A manifest install step (the JSON objects pushed to
`installSteps`).  `replacements = none` models the `undefined` field. -/
inductive InstallStepM where
  | copy (src dest : String)
  | patchBlock (file startMarker endMarker contentFile : String)
      (replacements : Option (List (String × String)))
  | setJsonValue (file keyPath : String) (value : JsVal)
  | base64Embed (file placeholder inputFile : String)
  | runCommand (command : String) (args : List String)

/-- Split on `','` (JS `String.prototype.split` with a one-character
separator). -/
def splitCommaAux : Chars → Chars → List String
  | [], acc => [⟨acc.reverse⟩]
  | c :: rest, acc =>
    if c = ',' then ⟨acc.reverse⟩ :: splitCommaAux rest []
    else splitCommaAux rest (c :: acc)

/-- `args.split(',').map(trim).filter(Boolean)`. -/
def parseArgs (args : String) : List String :=
  ((splitCommaAux args.toList []).map jsTrim).filter (fun a => a ≠ "")

/-! ### The `validation` memo -/

inductive IssueLevel where
  | errorL
  | warningL
deriving DecidableEq

inductive IssueMsg where
  | copyMissingSource
  | copyMissingDest
  | copyDestPlaceholder
  | patchMissingFile
  | patchMissingMarkers
  | patchMissingContent
  | patchFilePlaceholder
  | jsonMissingFile
  | jsonFileSuffix
  | jsonMissingKeyPath
  | jsonNumberInvalid
  | jsonValueInvalid
  | jsonFilePlaceholder
  | embedMissingFile
  | embedMissingPlaceholder
  | embedMissingInput
  | embedFilePlaceholder
  | commandMissing
deriving DecidableEq

def lowerChar (c : Char) : Char :=
  if 'A' ≤ c ∧ c ≤ 'Z' then Char.ofNat (c.toNat + 32) else c

/-- `step.file.trim().toLowerCase().endsWith('.json')` (ASCII lowering
suffices for this suffix test). -/
def endsWithJson (s : String) : Bool :=
  leadsWith ".json".toList.reverse (((jsTrim s).toList.map lowerChar).reverse)

/-- The issues the `validation` `useMemo` raises for one step (empty
for disabled steps, which the loop skips). -/
def stepIssues : UiStep → List (IssueLevel × IssueMsg)
  | .copy d =>
    if ¬d.enabled then []
    else
      (if jsTrim d.payloadSource = "" then [(.errorL, .copyMissingSource)] else []) ++
      (if jsTrim d.dest = "" then [(.errorL, .copyMissingDest)] else []) ++
      (if placeholderTest d.dest.toList then [(.warningL, .copyDestPlaceholder)] else [])
  | .patchBlock d =>
    if ¬d.enabled then []
    else
      (if jsTrim d.file = "" then [(.errorL, .patchMissingFile)] else []) ++
      (if jsTrim d.startMarker = "" ∨ jsTrim d.endMarker = "" then
        [(.errorL, .patchMissingMarkers)] else []) ++
      (if jsTrim d.contentSource = "" then [(.errorL, .patchMissingContent)] else []) ++
      (if placeholderTest d.file.toList then [(.warningL, .patchFilePlaceholder)] else [])
  | .setJsonValue d =>
    if ¬d.enabled then []
    else
      (if jsTrim d.file = "" then [(.errorL, .jsonMissingFile)] else []) ++
      (if d.file ≠ "" ∧ ¬endsWithJson d.file then [(.warningL, .jsonFileSuffix)] else []) ++
      (if jsTrim d.keyPath = "" then [(.errorL, .jsonMissingKeyPath)] else []) ++
      (if d.valueType = .vtNumber ∧ jsNumberIsNaN d.valueRaw then
        [(.errorL, .jsonNumberInvalid)] else []) ++
      (if d.valueType = .vtJson ∧
          (jsonParseJS (if d.valueRaw = "" then "null" else d.valueRaw)).isNone then
        [(.errorL, .jsonValueInvalid)] else []) ++
      (if placeholderTest d.file.toList then [(.warningL, .jsonFilePlaceholder)] else [])
  | .base64Embed d =>
    if ¬d.enabled then []
    else
      (if jsTrim d.file = "" then [(.errorL, .embedMissingFile)] else []) ++
      (if jsTrim d.placeholder = "" then [(.errorL, .embedMissingPlaceholder)] else []) ++
      (if jsTrim d.inputSource = "" then [(.errorL, .embedMissingInput)] else []) ++
      (if placeholderTest d.file.toList then [(.warningL, .embedFilePlaceholder)] else [])
  | .runCommand d =>
    if ¬d.enabled then []
    else if jsTrim d.command = "" then [(.errorL, .commandMissing)] else []

def validationIssues (steps : List UiStep) : List (IssueLevel × IssueMsg) :=
  steps.foldr (fun s acc => stepIssues s ++ acc) []

def validationErrorCount (steps : List UiStep) : Nat :=
  (validationIssues steps).countP (fun i => i.1 = IssueLevel.errorL)

/-! ### The `handleBuild` validation loop -/

inductive BuildError where
  | payloadEmpty
  | payloadClaimed (path : String)
  | copyMissingSource
  | copyMissingDest
  | patchMissingFile
  | patchMissingStart
  | patchMissingEnd
  | patchMissingContent
  | jsonMissingFile
  | jsonMissingKeyPath
  | jsonNumberInvalid
  | jsonValueInvalid
  | embedMissingFile
  | embedMissingPlaceholder
  | embedMissingInput
  | commandMissing
deriving DecidableEq

structure BuildState where
  errors : List BuildError
  payloadMap : List (String × String)
  installSteps : List InstallStepM

def initBuildState : BuildState := ⟨[], [], []⟩

/-- JS `Map.get` over the insertion-ordered association list. -/
def pmGet : List (String × String) → String → Option String
  | [], _ => none
  | (k, v) :: rest, key => if k = key then some v else pmGet rest key

def pushErr (st : BuildState) (e : BuildError) : BuildState :=
  { st with errors := st.errors ++ [e] }

def pushStep (st : BuildState) (s : InstallStepM) : BuildState :=
  { st with installSteps := st.installSteps ++ [s] }

/-- `addPayload` from `handleBuild`: empty staged path is an error; a
staged path already claimed by a *different* source is the collision
error; otherwise the map entry is set (`Map.set` keeps the original
position of an existing key). -/
def addPayload (st : BuildState) (rel source : String) : BuildState :=
  let cleaned := jsTrim rel
  if cleaned = "" then pushErr st .payloadEmpty
  else
    match pmGet st.payloadMap cleaned with
    | some v =>
      if v ≠ source then pushErr st (.payloadClaimed cleaned)
      else { st with payloadMap := jsAssign st.payloadMap cleaned source }
    | none => { st with payloadMap := jsAssign st.payloadMap cleaned source }

/-- The `replacements` record of an exported patch step:
keep pairs with non-blank keys, build the object by assignment, export
`undefined` when it has no keys. -/
def buildReplacements (l : List ReplacementPair) : Option (List (String × String)) :=
  let entries := jsRecordFromPairs
    ((l.filter (fun p => jsTrim p.key ≠ "")).map (fun p => (p.key, p.value)))
  if entries = [] then none else some entries

/-- One iteration of the `handleBuild` step loop. -/
def processStep (st : BuildState) : UiStep → BuildState
  | .copy d =>
    if ¬d.enabled then st
    else
      let source := jsTrim d.payloadSource
      let dest := jsTrim d.dest
      if source = "" then pushErr st .copyMissingSource
      else if dest = "" then pushErr st .copyMissingDest
      else
        let rel := if jsTrim d.payloadRel ≠ "" then jsTrim d.payloadRel else toBaseName source
        pushStep (addPayload st rel source) (.copy rel dest)
  | .patchBlock d =>
    if ¬d.enabled then st
    else
      let target := jsTrim d.file
      let startMarker := jsTrim d.startMarker
      let endMarker := jsTrim d.endMarker
      let contentSource := jsTrim d.contentSource
      if target = "" then pushErr st .patchMissingFile
      else if startMarker = "" then pushErr st .patchMissingStart
      else if endMarker = "" then pushErr st .patchMissingEnd
      else if contentSource = "" then pushErr st .patchMissingContent
      else
        let rel := if jsTrim d.contentRel ≠ "" then jsTrim d.contentRel
          else toBaseName contentSource
        pushStep (addPayload st rel contentSource)
          (.patchBlock target startMarker endMarker rel (buildReplacements d.replacements))
  | .setJsonValue d =>
    if ¬d.enabled then st
    else
      let target := jsTrim d.file
      let keyPath := jsTrim d.keyPath
      if target = "" then pushErr st .jsonMissingFile
      else if keyPath = "" then pushErr st .jsonMissingKeyPath
      else
        match d.valueType with
        | .vtNumber =>
          match jsStringToNumber d.valueRaw with
          | .nanv => pushErr st .jsonNumberInvalid
          | n => pushStep st (.setJsonValue target keyPath (.vnum n))
        | .vtBoolean => pushStep st (.setJsonValue target keyPath (.vbool d.valueBool))
        | .vtJson =>
          match jsonParseJS (if d.valueRaw = "" then "null" else d.valueRaw) with
          | some t => pushStep st (.setJsonValue target keyPath t)
          | none => pushErr st .jsonValueInvalid
        | .vtString => pushStep st (.setJsonValue target keyPath (.vstr d.valueRaw))
  | .base64Embed d =>
    if ¬d.enabled then st
    else
      let target := jsTrim d.file
      let placeholder := jsTrim d.placeholder
      let inputSource := jsTrim d.inputSource
      if target = "" then pushErr st .embedMissingFile
      else if placeholder = "" then pushErr st .embedMissingPlaceholder
      else if inputSource = "" then pushErr st .embedMissingInput
      else
        let rel := if jsTrim d.inputRel ≠ "" then jsTrim d.inputRel else toBaseName inputSource
        pushStep (addPayload st rel inputSource) (.base64Embed target placeholder rel)
  | .runCommand d =>
    if ¬d.enabled then st
    else
      let command := jsTrim d.command
      if command = "" then pushErr st .commandMissing
      else pushStep st (.runCommand command (parseArgs d.args))

def runBuildValidation (steps : List UiStep) : BuildState :=
  steps.foldl processStep initBuildState

/-- The non-step form state of the Dashboard. -/
structure StudioForm where
  projectName : String
  appName : String
  version : String
  publisher : String
  description : String
  advancedMode : Bool
  payloadDir : String

structure ManifestM where
  appName : String
  version : String
  publisher : String
  description : String
  advancedMode : Bool
  targets : List String
  payloadDir : String
  installSteps : List InstallStepM

/-- `payloadDir.trim() || 'payloads'`. -/
def payloadDirValue (s : String) : String :=
  if jsTrim s = "" then "payloads" else jsTrim s

structure BuildPlan where
  manifest : ManifestM
  payloadFiles : List (String × String)

/-- The validation phase of `handleBuild`: either the collected errors
(the thrown `Error`) or the manifest and payload file list passed to
the backend. -/
def handleBuildPlan (form : StudioForm) (steps : List UiStep) :
    Except (List BuildError) BuildPlan :=
  let st := runBuildValidation steps
  if st.errors = [] then
    .ok
      { manifest :=
          { appName := form.appName
            version := form.version
            publisher := form.publisher
            description := form.description
            advancedMode := form.advancedMode
            targets := []
            payloadDir := payloadDirValue form.payloadDir
            installSteps := st.installSteps }
        payloadFiles := st.payloadMap.map (fun kv => (kv.2, kv.1)) }
  else .error st.errors

/-! ### The confirmation flow of `handleBuild` (claim C4) -/

structure BuildTargetInfo where
  path : String
  pathExists : Bool
  hasMarker : Bool
  isAbsolute : Bool

structure BuildRequestM where
  projectName : String
  manifest : ManifestM
  payloadFiles : List (String × String)
  forceOverwrite : Option Bool

inductive FlowEvent where
  | inspectCall (req : BuildRequestM)
  | confirmNoMarker
  | confirmDelete
  | confirmOverwrite
  | buildCall (req : BuildRequestM)

/-- The environment of one `handleBuild` run: what
`inspect_build_target` reports and how the operator answers each
dialog. -/
structure FlowAnswers where
  target : BuildTargetInfo
  answerNoMarker : Bool
  answerDelete : Bool
  answerOverwrite : Bool

def mkRequest (form : StudioForm) (plan : BuildPlan) (force : Option Bool) : BuildRequestM :=
  { projectName := form.projectName
    manifest := plan.manifest
    payloadFiles := plan.payloadFiles
    forceOverwrite := force }

/-- The ordered backend calls and confirmation prompts `handleBuild`
issues after validation: nothing on a validation error; otherwise the
inspect call followed by the confirmation ladder and (possibly) the
build call. -/
def handleBuildFlow (form : StudioForm) (steps : List UiStep) (env : FlowAnswers) :
    List FlowEvent :=
  match handleBuildPlan form steps with
  | .error _ => []
  | .ok plan =>
    FlowEvent.inspectCall (mkRequest form plan none) ::
      (if env.target.pathExists then
        if env.target.isAbsolute ∧ ¬env.target.hasMarker then
          FlowEvent.confirmNoMarker ::
            (if ¬env.answerNoMarker then []
              else
                FlowEvent.confirmDelete ::
                  (if ¬env.answerDelete then []
                    else [FlowEvent.buildCall (mkRequest form plan (some true))]))
        else
          FlowEvent.confirmOverwrite ::
            (if env.answerOverwrite then
              [FlowEvent.buildCall (mkRequest form plan (some true))]
              else [])
      else [FlowEvent.buildCall (mkRequest form plan (some false))])

/-! ### Claim C2 — staged payload path collisions

`addPayload` records `payloadClaimed` whenever a staged (trimmed)
payload-relative path is already mapped to a different source, and the
map entry for a path never changes once set, so any two
payload-contributing steps whose staged paths coincide but whose
sources differ make `handleBuild` throw before any backend call. -/

/-- The staged `(cleaned rel, trimmed source)` pair of a
payload-contributing step that passes its per-field checks, i.e. the
arguments `handleBuild` hands to `addPayload` for it. -/
def stagedEntry : UiStep → Option (String × String)
  | .copy d =>
    if d.enabled = true ∧ jsTrim d.payloadSource ≠ "" ∧ jsTrim d.dest ≠ "" then
      some (jsTrim (if jsTrim d.payloadRel ≠ "" then jsTrim d.payloadRel
        else toBaseName (jsTrim d.payloadSource)), jsTrim d.payloadSource)
    else none
  | .patchBlock d =>
    if d.enabled = true ∧ jsTrim d.file ≠ "" ∧ jsTrim d.startMarker ≠ "" ∧
        jsTrim d.endMarker ≠ "" ∧ jsTrim d.contentSource ≠ "" then
      some (jsTrim (if jsTrim d.contentRel ≠ "" then jsTrim d.contentRel
        else toBaseName (jsTrim d.contentSource)), jsTrim d.contentSource)
    else none
  | .base64Embed d =>
    if d.enabled = true ∧ jsTrim d.file ≠ "" ∧ jsTrim d.placeholder ≠ "" ∧
        jsTrim d.inputSource ≠ "" then
      some (jsTrim (if jsTrim d.inputRel ≠ "" then jsTrim d.inputRel
        else toBaseName (jsTrim d.inputSource)), jsTrim d.inputSource)
    else none
  | _ => none

theorem pmGet_jsAssign_same (pm : List (String × String)) (k v : String) :
    pmGet (jsAssign pm k v) k = some v := by
  induction pm with
  | nil => simp [jsAssign, pmGet]
  | cons kv rest ih =>
    obtain ⟨k', v'⟩ := kv
    by_cases h : k' = k
    · subst h; simp [jsAssign, pmGet]
    · simp [jsAssign, pmGet, h, ih]

theorem pmGet_jsAssign_other (pm : List (String × String)) (k v x : String) (h : k ≠ x) :
    pmGet (jsAssign pm k v) x = pmGet pm x := by
  induction pm with
  | nil => simp [jsAssign, pmGet, h]
  | cons kv rest ih =>
    obtain ⟨k', v'⟩ := kv
    by_cases hk : k' = k
    · subst hk; simp [jsAssign, pmGet, h, ih]
    · simp only [jsAssign, if_neg hk]
      by_cases hx : k' = x
      · simp [pmGet, hx]
      · simp [pmGet, hx, ih]

theorem addPayload_errors_extend (st : BuildState) (rel source : String) :
    ∃ t, (addPayload st rel source).errors = st.errors ++ t := by
  simp only [addPayload]
  split
  · exact ⟨[BuildError.payloadEmpty], rfl⟩
  · cases hg : pmGet st.payloadMap (jsTrim rel) with
    | some v =>
      simp only [hg]
      split
      · exact ⟨[BuildError.payloadClaimed (jsTrim rel)], rfl⟩
      · exact ⟨[], by simp⟩
    | none =>
      simp only [hg]
      exact ⟨[], by simp⟩

theorem addPayload_pm_stable (st : BuildState) (rel source x v : String)
    (hv : pmGet st.payloadMap x = some v) :
    pmGet (addPayload st rel source).payloadMap x = some v := by
  simp only [addPayload]
  split
  · simpa [pushErr] using hv
  · cases hg : pmGet st.payloadMap (jsTrim rel) with
    | some w =>
      simp only [hg]
      split
      · simpa [pushErr] using hv
      · by_cases hx : jsTrim rel = x
        · subst hx
          rw [hg] at hv
          rename_i hws
          have hws' : w = source := by
            by_cases hq : w = source
            · exact hq
            · exact absurd hq hws
          simp only [pmGet_jsAssign_same]
          rw [← hws']
          exact hv
        · simpa [pmGet_jsAssign_other st.payloadMap (jsTrim rel) source x hx] using hv
    | none =>
      simp only [hg]
      by_cases hx : jsTrim rel = x
      · subst hx; rw [hg] at hv; cases hv
      · simpa [pmGet_jsAssign_other st.payloadMap (jsTrim rel) source x hx] using hv

theorem addPayload_claimed (st : BuildState) (rel source v : String)
    (hx : jsTrim rel ≠ "") (hg : pmGet st.payloadMap (jsTrim rel) = some v)
    (hne : v ≠ source) :
    BuildError.payloadClaimed (jsTrim rel) ∈ (addPayload st rel source).errors := by
  simp only [addPayload, if_neg hx, hg, if_pos hne, pushErr]
  exact List.mem_append_right _ (List.mem_singleton.mpr rfl)

theorem addPayload_sets (st : BuildState) (rel source : String)
    (hx : jsTrim rel ≠ "") (hg : pmGet st.payloadMap (jsTrim rel) = none) :
    pmGet (addPayload st rel source).payloadMap (jsTrim rel) = some source := by
  simp only [addPayload, if_neg hx, hg]
  exact pmGet_jsAssign_same _ _ _

set_option maxHeartbeats 1600000 in
theorem staged_processStep (st : BuildState) (s : UiStep) (x src : String)
    (h : stagedEntry s = some (x, src)) :
    ∃ rel, jsTrim rel = x ∧
      (processStep st s).errors = (addPayload st rel src).errors ∧
      (processStep st s).payloadMap = (addPayload st rel src).payloadMap := by
  cases s with
  | copy d =>
    simp only [stagedEntry] at h
    split at h
    · rename_i hcond
      obtain ⟨hen, hsrc, hdst⟩ := hcond
      simp only [Option.some.injEq, Prod.mk.injEq] at h
      obtain ⟨hx, hsrceq⟩ := h
      subst hx
      subst hsrceq
      refine ⟨if jsTrim d.payloadRel ≠ "" then jsTrim d.payloadRel
        else toBaseName (jsTrim d.payloadSource), rfl, ?_, ?_⟩ <;>
      · simp only [processStep]
        rw [if_neg (not_not_intro hen), if_neg hsrc, if_neg hdst]
        rfl
    · cases h
  | patchBlock d =>
    simp only [stagedEntry] at h
    split at h
    · rename_i hcond
      obtain ⟨hen, hfile, hsm, hem, hcs⟩ := hcond
      simp only [Option.some.injEq, Prod.mk.injEq] at h
      obtain ⟨hx, hsrceq⟩ := h
      subst hx
      subst hsrceq
      refine ⟨if jsTrim d.contentRel ≠ "" then jsTrim d.contentRel
        else toBaseName (jsTrim d.contentSource), rfl, ?_, ?_⟩ <;>
      · simp only [processStep]
        rw [if_neg (not_not_intro hen), if_neg hfile, if_neg hsm, if_neg hem, if_neg hcs]
        rfl
    · cases h
  | base64Embed d =>
    simp only [stagedEntry] at h
    split at h
    · rename_i hcond
      obtain ⟨hen, hfile, hph, his⟩ := hcond
      simp only [Option.some.injEq, Prod.mk.injEq] at h
      obtain ⟨hx, hsrceq⟩ := h
      subst hx
      subst hsrceq
      refine ⟨if jsTrim d.inputRel ≠ "" then jsTrim d.inputRel
        else toBaseName (jsTrim d.inputSource), rfl, ?_, ?_⟩ <;>
      · simp only [processStep]
        rw [if_neg (not_not_intro hen), if_neg hfile, if_neg hph, if_neg his]
        rfl
    · cases h
  | setJsonValue d => cases h
  | runCommand d => cases h

theorem idShape (st : BuildState) :
    (∃ t, st.errors = st.errors ++ t) ∧
    (st.payloadMap = st.payloadMap ∨
      ∃ rel src, st.payloadMap = (addPayload st rel src).payloadMap) :=
  ⟨⟨[], (List.append_nil _).symm⟩, Or.inl rfl⟩

theorem errShape (st : BuildState) (e : BuildError) :
    (∃ t, (pushErr st e).errors = st.errors ++ t) ∧
    ((pushErr st e).payloadMap = st.payloadMap ∨
      ∃ rel src, (pushErr st e).payloadMap = (addPayload st rel src).payloadMap) :=
  ⟨⟨[e], rfl⟩, Or.inl rfl⟩

theorem stepShape (st : BuildState) (m : InstallStepM) :
    (∃ t, (pushStep st m).errors = st.errors ++ t) ∧
    ((pushStep st m).payloadMap = st.payloadMap ∨
      ∃ rel src, (pushStep st m).payloadMap = (addPayload st rel src).payloadMap) :=
  ⟨⟨[], (List.append_nil _).symm⟩, Or.inl rfl⟩

theorem payShape (st : BuildState) (rel src : String) (m : InstallStepM) :
    (∃ t, (pushStep (addPayload st rel src) m).errors = st.errors ++ t) ∧
    ((pushStep (addPayload st rel src) m).payloadMap = st.payloadMap ∨
      ∃ r s, (pushStep (addPayload st rel src) m).payloadMap =
        (addPayload st r s).payloadMap) :=
  ⟨addPayload_errors_extend st rel src, Or.inr ⟨rel, src, rfl⟩⟩

theorem processStep_shape (st : BuildState) (s : UiStep) :
    (∃ t, (processStep st s).errors = st.errors ++ t) ∧
    ((processStep st s).payloadMap = st.payloadMap ∨
      ∃ rel src, (processStep st s).payloadMap = (addPayload st rel src).payloadMap) := by
  cases s with
  | copy d =>
    simp only [processStep]
    split
    · exact idShape st
    · split
      · exact errShape st _
      · split
        · exact errShape st _
        · exact payShape st _ _ _
  | patchBlock d =>
    simp only [processStep]
    split
    · exact idShape st
    · split
      · exact errShape st _
      · split
        · exact errShape st _
        · split
          · exact errShape st _
          · split
            · exact errShape st _
            · exact payShape st _ _ _
  | setJsonValue d =>
    simp only [processStep]
    split
    · exact idShape st
    · split
      · exact errShape st _
      · split
        · exact errShape st _
        · split <;>
            first
              | exact stepShape st _
              | (split <;> first | exact errShape st _ | exact stepShape st _)
  | base64Embed d =>
    simp only [processStep]
    split
    · exact idShape st
    · split
      · exact errShape st _
      · split
        · exact errShape st _
        · split
          · exact errShape st _
          · exact payShape st _ _ _
  | runCommand d =>
    simp only [processStep]
    split
    · exact idShape st
    · split
      · exact errShape st _
      · exact stepShape st _

theorem processStep_pm_stable (st : BuildState) (s : UiStep) (x v : String)
    (hv : pmGet st.payloadMap x = some v) :
    pmGet (processStep st s).payloadMap x = some v := by
  obtain ⟨_, hpm⟩ := processStep_shape st s
  cases hpm with
  | inl h => rw [h]; exact hv
  | inr h =>
    obtain ⟨rel, src, h⟩ := h
    rw [h]
    exact addPayload_pm_stable st rel src x v hv

theorem foldl_errors_mono (L : List UiStep) :
    ∀ (st : BuildState) (e : BuildError), e ∈ st.errors →
      e ∈ (List.foldl processStep st L).errors := by
  induction L with
  | nil => intro st e he; simpa using he
  | cons s rest ih =>
    intro st e he
    simp only [List.foldl_cons]
    apply ih
    obtain ⟨⟨t, ht⟩, _⟩ := processStep_shape st s
    rw [ht]
    exact List.mem_append_left _ he

theorem foldl_pm_stable (L : List UiStep) :
    ∀ (st : BuildState) (x v : String), pmGet st.payloadMap x = some v →
      pmGet (List.foldl processStep st L).payloadMap x = some v := by
  induction L with
  | nil => intro st x v hv; simpa using hv
  | cons s rest ih =>
    intro st x v hv
    simp only [List.foldl_cons]
    exact ih _ x v (processStep_pm_stable st s x v hv)

theorem processStep_claims (st : BuildState) (s : UiStep) (x b v : String)
    (h : stagedEntry s = some (x, b)) (hx : x ≠ "")
    (hv : pmGet st.payloadMap x = some v) (hne : v ≠ b) :
    BuildError.payloadClaimed x ∈ (processStep st s).errors := by
  obtain ⟨rel, hrel, herr, _⟩ := staged_processStep st s x b h
  rw [herr]
  subst hrel
  exact addPayload_claimed st rel b v hx hv hne

theorem processStep_sets (st : BuildState) (s : UiStep) (x b : String)
    (h : stagedEntry s = some (x, b)) (hx : x ≠ "")
    (hv : pmGet st.payloadMap x = none) :
    pmGet (processStep st s).payloadMap x = some b := by
  obtain ⟨rel, hrel, _, hpm⟩ := staged_processStep st s x b h
  rw [hpm]
  subst hrel
  exact addPayload_sets st rel b hx hv

theorem foldl_claims_of_staged (L2 L3 : List UiStep) (s2 : UiStep) (st : BuildState)
    (x b v : String) (h2 : stagedEntry s2 = some (x, b)) (hx : x ≠ "")
    (hv : pmGet st.payloadMap x = some v) (hne : v ≠ b) :
    BuildError.payloadClaimed x ∈ (List.foldl processStep st (L2 ++ s2 :: L3)).errors := by
  rw [List.foldl_append]
  simp only [List.foldl_cons]
  exact foldl_errors_mono L3 _ _
    (processStep_claims (List.foldl processStep st L2) s2 x b v h2 hx
      (foldl_pm_stable L2 st x v hv) hne)

/-- C2: two enabled payload-contributing steps (in any positions of the
step list, with any other steps around them) whose staged trimmed
payload-relative paths agree but whose trimmed sources differ make
`handleBuild` record the `payload path is already claimed` validation
error and throw: the build plan is an error containing that collision,
and no backend call (`inspect_build_target` or `build_project`) is ever
issued, for every possible dialog environment. -/
theorem handleBuild_rejects_payload_collision (form : StudioForm)
    (L1 L2 L3 : List UiStep) (s1 s2 : UiStep) (x a b : String)
    (h1 : stagedEntry s1 = some (x, a)) (h2 : stagedEntry s2 = some (x, b))
    (hx : x ≠ "") (hab : a ≠ b) :
    ∃ es, handleBuildPlan form (L1 ++ s1 :: (L2 ++ s2 :: L3)) = .error es ∧
      BuildError.payloadClaimed x ∈ es ∧
      ∀ env, handleBuildFlow form (L1 ++ s1 :: (L2 ++ s2 :: L3)) env = [] := by
  have hclaimed : BuildError.payloadClaimed x ∈
      (runBuildValidation (L1 ++ s1 :: (L2 ++ s2 :: L3))).errors := by
    unfold runBuildValidation
    rw [List.foldl_append]
    simp only [List.foldl_cons]
    cases hv : pmGet (List.foldl processStep initBuildState L1).payloadMap x with
    | none =>
      exact foldl_claims_of_staged L2 L3 s2 _ x b a h2 hx
        (processStep_sets _ s1 x a h1 hx hv) hab
    | some v =>
      by_cases hva : v = a
      · subst hva
        exact foldl_claims_of_staged L2 L3 s2 _ x b v h2 hx
          (processStep_pm_stable _ s1 x v hv) hab
      · exact foldl_errors_mono (L2 ++ s2 :: L3) _ _
          (processStep_claims _ s1 x a v h1 hx hv hva)
  have herrne : (runBuildValidation (L1 ++ s1 :: (L2 ++ s2 :: L3))).errors ≠ [] := by
    intro hnil
    rw [hnil] at hclaimed
    cases hclaimed
  refine ⟨(runBuildValidation (L1 ++ s1 :: (L2 ++ s2 :: L3))).errors, ?_, hclaimed, ?_⟩
  · simp only [handleBuildPlan, if_neg herrne]
  · intro env
    simp only [handleBuildFlow, handleBuildPlan, if_neg herrne]

def c2form : StudioForm :=
  { projectName := "proj", appName := "App", version := "1.0.0", publisher := "pub"
    description := "desc", advancedMode := false, payloadDir := "payloads" }

def c2step1 : UiStep :=
  .copy { enabled := true, payloadSource := "files/a.css", payloadRel := "x.css"
          dest := "target/x.css" }

def c2step2 : UiStep :=
  .copy { enabled := true, payloadSource := "files/b.css", payloadRel := " x.css "
          dest := "target/y.css" }

def c2env : FlowAnswers :=
  { target := { path := "out/App", pathExists := false, isAbsolute := false, hasMarker := false }
    answerNoMarker := true, answerDelete := true, answerOverwrite := true }

theorem handleBuild_rejects_payload_collision_witness :
    stagedEntry c2step1 = some ("x.css", "files/a.css") ∧
    stagedEntry c2step2 = some ("x.css", "files/b.css") ∧
    ("x.css" : String) ≠ "" ∧
    ("files/a.css" : String) ≠ "files/b.css" ∧
    (∃ es, handleBuildPlan c2form ([] ++ c2step1 :: ([] ++ c2step2 :: [])) = .error es ∧
      BuildError.payloadClaimed "x.css" ∈ es) ∧
    handleBuildFlow c2form ([] ++ c2step1 :: ([] ++ c2step2 :: [])) c2env = [] := by
  obtain ⟨es, hplan, hmem, hflow⟩ :=
    handleBuild_rejects_payload_collision c2form [] [] [] c2step1 c2step2
      "x.css" "files/a.css" "files/b.css" (by decide) (by decide) (by decide) (by decide)
  exact ⟨by decide, by decide, by decide, by decide, ⟨es, hplan, hmem⟩, hflow c2env⟩

/-! ### Claim C3 — non-numeric `number` values

The validation memo and the `handleBuild` loop both skip disabled
steps, so the claim holds only for enabled steps: a disabled
`setJsonValue` step with a NaN raw value sails through validation and
the build proceeds. -/

theorem stepIssues_nan_mem (d : SetJsonValueStepData)
    (hen : d.enabled = true) (hty : d.valueType = .vtNumber)
    (hnan : jsNumberIsNaN d.valueRaw = true) :
    (IssueLevel.errorL, IssueMsg.jsonNumberInvalid) ∈ stepIssues (.setJsonValue d) := by
  simp only [stepIssues, if_neg (not_not_intro hen)]
  refine List.mem_append_left _ (List.mem_append_left _ (List.mem_append_right _ ?_))
  rw [if_pos ⟨hty, hnan⟩]
  exact List.mem_singleton.mpr rfl

theorem validationIssues_cons (s : UiStep) (L : List UiStep) :
    validationIssues (s :: L) = stepIssues s ++ validationIssues L := rfl

theorem validationIssues_append (L1 L2 : List UiStep) :
    validationIssues (L1 ++ L2) = validationIssues L1 ++ validationIssues L2 := by
  induction L1 with
  | nil => rfl
  | cons s rest ih => simp [validationIssues_cons, ih]

theorem processStep_nan_err (st : BuildState) (d : SetJsonValueStepData)
    (hen : d.enabled = true) (hty : d.valueType = .vtNumber)
    (hnan : jsStringToNumber d.valueRaw = .nanv) :
    ∃ e, e ∈ (processStep st (.setJsonValue d)).errors := by
  simp only [processStep, if_neg (not_not_intro hen)]
  by_cases hf : jsTrim d.file = ""
  · rw [if_pos hf]
    exact ⟨.jsonMissingFile, by simp [pushErr]⟩
  · rw [if_neg hf]
    by_cases hk : jsTrim d.keyPath = ""
    · rw [if_pos hk]
      exact ⟨.jsonMissingKeyPath, by simp [pushErr]⟩
    · rw [if_neg hk, hty, hnan]
      exact ⟨.jsonNumberInvalid, by simp [pushErr]⟩

theorem runBuildValidation_nan_err (L1 L2 : List UiStep) (d : SetJsonValueStepData)
    (hen : d.enabled = true) (hty : d.valueType = .vtNumber)
    (hnan : jsStringToNumber d.valueRaw = .nanv) :
    (runBuildValidation (L1 ++ .setJsonValue d :: L2)).errors ≠ [] := by
  unfold runBuildValidation
  rw [List.foldl_append]
  simp only [List.foldl_cons]
  obtain ⟨e, he⟩ := processStep_nan_err (List.foldl processStep initBuildState L1) d hen hty hnan
  have hm := foldl_errors_mono L2 _ e he
  intro hnil
  rw [hnil] at hm
  cases hm

def sampleForm : StudioForm :=
  { projectName := "proj", appName := "App", version := "1.0.0", publisher := "pub"
    description := "desc", advancedMode := false, payloadDir := "" }

def sampleEnv : FlowAnswers :=
  { target := { path := "out/App", pathExists := false, hasMarker := false
                isAbsolute := false }
    answerNoMarker := true, answerDelete := true, answerOverwrite := true }

def c3disabled : UiStep :=
  .setJsonValue { enabled := false, file := "cfg.json", keyPath := "a.b"
                  valueType := .vtNumber, valueRaw := "abc", valueBool := false }

def c3plan : BuildPlan :=
  { manifest :=
      { appName := "App", version := "1.0.0", publisher := "pub", description := "desc"
        advancedMode := false, targets := [], payloadDir := "payloads", installSteps := [] }
    payloadFiles := [] }

/-- C3 counterexample: the claim quantifies over *every* `setJsonValue`
step with a non-numeric raw value, but both the validation memo and
`handleBuild` skip disabled steps, so a disabled NaN-number step
produces no issue and the build proceeds all the way to
`inspect_build_target` and `build_project`. -/
theorem setJsonValue_nan_disabled_counterexample :
    jsNumberIsNaN "abc" = true ∧
    validationIssues [c3disabled] = [] ∧
    validationErrorCount [c3disabled] = 0 ∧
    handleBuildPlan sampleForm [c3disabled] = .ok c3plan ∧
    handleBuildFlow sampleForm [c3disabled] sampleEnv =
      [FlowEvent.inspectCall (mkRequest sampleForm c3plan none),
       FlowEvent.buildCall (mkRequest sampleForm c3plan (some false))] :=
  ⟨rfl, rfl, rfl, rfl, rfl⟩

/-- C3 (amended): for every *enabled* `setJsonValue` step with
`valueType = number` whose raw value is NaN under `Number(...)`, the
validation memo reports the `not a number` error, the error count is
positive, `handleBuild` throws a validation error, and no backend call
(`inspect_build_target` or `build_project`) is issued in any dialog
environment. -/
theorem setJsonValue_nan_enabled_rejected (form : StudioForm) (L1 L2 : List UiStep)
    (d : SetJsonValueStepData) (hen : d.enabled = true) (hty : d.valueType = .vtNumber)
    (hnan : jsNumberIsNaN d.valueRaw = true) :
    (IssueLevel.errorL, IssueMsg.jsonNumberInvalid) ∈
      validationIssues (L1 ++ .setJsonValue d :: L2) ∧
    0 < validationErrorCount (L1 ++ .setJsonValue d :: L2) ∧
    (∃ es, handleBuildPlan form (L1 ++ .setJsonValue d :: L2) = .error es) ∧
    ∀ env, handleBuildFlow form (L1 ++ .setJsonValue d :: L2) env = [] := by
  have hnan' : jsStringToNumber d.valueRaw = .nanv := by
    simpa [jsNumberIsNaN] using hnan
  have hval : (IssueLevel.errorL, IssueMsg.jsonNumberInvalid) ∈
      validationIssues (L1 ++ .setJsonValue d :: L2) := by
    rw [validationIssues_append, validationIssues_cons]
    exact List.mem_append_right _ (List.mem_append_left _ (stepIssues_nan_mem d hen hty hnan))
  have hne := runBuildValidation_nan_err L1 L2 d hen hty hnan'
  have hplan : handleBuildPlan form (L1 ++ .setJsonValue d :: L2) =
      .error (runBuildValidation (L1 ++ .setJsonValue d :: L2)).errors := by
    simp only [handleBuildPlan, if_neg hne]
  refine ⟨hval, List.countP_pos_iff.mpr ⟨_, hval, rfl⟩, ⟨_, hplan⟩, ?_⟩
  intro env
  simp only [handleBuildFlow, hplan]

def c3enabled : SetJsonValueStepData :=
  { enabled := true, file := "cfg.json", keyPath := "a.b"
    valueType := .vtNumber, valueRaw := "abc", valueBool := false }

theorem setJsonValue_nan_enabled_rejected_witness :
    c3enabled.enabled = true ∧ c3enabled.valueType = .vtNumber ∧
    jsNumberIsNaN c3enabled.valueRaw = true ∧
    (IssueLevel.errorL, IssueMsg.jsonNumberInvalid) ∈
      validationIssues ([] ++ .setJsonValue c3enabled :: []) ∧
    0 < validationErrorCount ([] ++ .setJsonValue c3enabled :: []) ∧
    (∃ es, handleBuildPlan sampleForm ([] ++ .setJsonValue c3enabled :: []) = .error es) ∧
    handleBuildFlow sampleForm ([] ++ .setJsonValue c3enabled :: []) sampleEnv = [] := by
  obtain ⟨h1, h2, h3, h4⟩ :=
    setJsonValue_nan_enabled_rejected sampleForm [] [] c3enabled rfl rfl rfl
  exact ⟨rfl, rfl, rfl, h1, h2, h3, h4 sampleEnv⟩

/-! ### Claim C4 — the overwrite confirmation ladder -/

/-- C4: once validation passes, the flow after `inspect_build_target`
is exactly: no confirmation and a `forceOverwrite = false` build when
the target does not exist; a single overwrite confirmation (gating a
`forceOverwrite = true` build) when it exists but is not absolute or
carries the marker; and the no-marker warning followed by the
destructive-delete confirmation (each declining answer producing no
build call) when it exists, is absolute, and lacks the marker. -/
theorem handleBuild_overwrite_policy (form : StudioForm) (steps : List UiStep)
    (plan : BuildPlan) (env : FlowAnswers)
    (hok : handleBuildPlan form steps = .ok plan) :
    (env.target.pathExists = false →
      handleBuildFlow form steps env =
        [.inspectCall (mkRequest form plan none),
         .buildCall (mkRequest form plan (some false))]) ∧
    (env.target.pathExists = true →
      (env.target.isAbsolute = false ∨ env.target.hasMarker = true) →
      handleBuildFlow form steps env =
        .inspectCall (mkRequest form plan none) :: .confirmOverwrite ::
          (if env.answerOverwrite then [.buildCall (mkRequest form plan (some true))]
            else [])) ∧
    (env.target.pathExists = true → env.target.isAbsolute = true →
      env.target.hasMarker = false →
      handleBuildFlow form steps env =
        .inspectCall (mkRequest form plan none) :: .confirmNoMarker ::
          (if env.answerNoMarker then
            .confirmDelete ::
              (if env.answerDelete then [.buildCall (mkRequest form plan (some true))]
                else [])
            else [])) := by
  refine ⟨?_, ?_, ?_⟩
  · intro hpe
    simp [handleBuildFlow, hok, hpe]
  · intro hpe hor
    have hcond : ¬(env.target.isAbsolute = true ∧ ¬env.target.hasMarker = true) := by
      rcases hor with h | h
      · intro hc
        rw [h] at hc
        cases hc.1
      · intro hc
        exact hc.2 h
    simp only [handleBuildFlow, hok]
    rw [if_pos hpe, if_neg hcond]
  · intro hpe ha hm
    have hcond : env.target.isAbsolute = true ∧ ¬env.target.hasMarker = true := by
      refine ⟨ha, ?_⟩
      rw [hm]
      simp
    simp only [handleBuildFlow, hok]
    rw [if_pos hpe, if_pos hcond]
    obtain ⟨t, anm, ad, ao⟩ := env
    cases anm <;> cases ad <;> simp

theorem handleBuild_overwrite_policy_witness :
    handleBuildPlan sampleForm [] = .ok c3plan ∧
    sampleEnv.target.pathExists = false ∧
    handleBuildFlow sampleForm [] sampleEnv =
      [.inspectCall (mkRequest sampleForm c3plan none),
       .buildCall (mkRequest sampleForm c3plan (some false))] := by
  refine ⟨rfl, rfl, ?_⟩
  exact (handleBuild_overwrite_policy sampleForm [] c3plan sampleEnv rfl).1 rfl

/-! ## Installer consent (Installer.tsx `handleInstall`, claim C7) -/

/-- A loaded manifest step as `handleInstall` sees it: a `type` tag and
an optional string `command` field (`none` models a missing or
non-string `command`). -/
structure InstallStepL where
  type : String
  command : Option String

inductive InstallerEvent where
  | consentDialog (commands : List String)
  | runInstallCall

structure InstallRunL where
  events : List InstallerEvent
  logLines : List String

def commandSteps (steps : List InstallStepL) : List InstallStepL :=
  steps.filter (fun s => s.type = "runCommand")

/-- `commandSteps.map(step => step.command).filter(cmd => typeof cmd
=== 'string' && cmd.trim().length > 0)`. -/
def shownCommands (steps : List InstallStepL) : List String :=
  ((commandSteps steps).filterMap (fun s => s.command)).filter (fun c => jsTrim c ≠ "")

/-- `handleInstall` up to the `run_install` invocation: when any
`runCommand` step is present the consent dialog comes first, and a
declined dialog logs the cancellation line and returns before
`invoke('run_install')`. -/
def handleInstall (steps : List InstallStepL) (consent : Bool) : InstallRunL :=
  if (commandSteps steps).length > 0 then
    if consent then
      { events := [.consentDialog (shownCommands steps), .runInstallCall]
        logLines := ["Enacting installation..."] }
    else
      { events := [.consentDialog (shownCommands steps)]
        logLines := ["Installation cancelled by user."] }
  else
    { events := [.runInstallCall], logLines := ["Enacting installation..."] }

/-- C7: whenever the manifest holds at least one `runCommand` step, the
consent dialog is the first event for either answer, and a declined
dialog yields no `run_install` call and exactly the cancellation log
line. -/
theorem handleInstall_requests_consent (steps : List InstallStepL) (s : InstallStepL)
    (hs : s ∈ steps) (hty : s.type = "runCommand") :
    (∀ consent, (handleInstall steps consent).events.head? =
      some (.consentDialog (shownCommands steps))) ∧
    (handleInstall steps false).events = [.consentDialog (shownCommands steps)] ∧
    InstallerEvent.runInstallCall ∉ (handleInstall steps false).events ∧
    (handleInstall steps false).logLines = ["Installation cancelled by user."] := by
  have hmem : s ∈ commandSteps steps := List.mem_filter.mpr ⟨hs, by simp [hty]⟩
  have hpos : (commandSteps steps).length > 0 :=
    List.length_pos.mpr (List.ne_nil_of_mem hmem)
  refine ⟨?_, ?_, ?_, ?_⟩
  · intro consent
    cases consent <;> simp [handleInstall, if_pos hpos]
  · simp [handleInstall, if_pos hpos]
  · simp [handleInstall, if_pos hpos]
  · simp [handleInstall, if_pos hpos]

def c7step : InstallStepL := { type := "runCommand", command := some "echo hi" }

theorem handleInstall_requests_consent_witness :
    c7step ∈ [c7step] ∧ c7step.type = "runCommand" ∧
    (handleInstall [c7step] true).events.head? =
      some (.consentDialog (shownCommands [c7step])) ∧
    (handleInstall [c7step] false).events = [.consentDialog (shownCommands [c7step])] ∧
    InstallerEvent.runInstallCall ∉ (handleInstall [c7step] false).events ∧
    (handleInstall [c7step] false).logLines = ["Installation cancelled by user."] := by
  obtain ⟨h1, h2, h3, h4⟩ :=
    handleInstall_requests_consent [c7step] c7step (List.mem_singleton.mpr rfl) rfl
  exact ⟨List.mem_singleton.mpr rfl, rfl, h1 true, h2, h3, h4⟩

/-! ## Preset normalization (App.tsx `normalizePresetData`, claim C10) -/

def lookupField : List (String × JsVal) → String → Option JsVal
  | [], _ => none
  | (k', v) :: rest, k => if k' = k then some v else lookupField rest k

/-- `raw?.k`: property access with optional chaining — `undefined`
(here `none`) on every non-object. -/
def jGetField : JsVal → String → Option JsVal
  | .vobj fs, k => lookupField fs k
  | _, _ => none

def jsStrVal : JsVal → Option String
  | .vstr s => some s
  | _ => none

/-- `typeof raw.k === 'string' ? raw.k : d`. -/
def strFieldOr (v : JsVal) (k d : String) : String :=
  match (jGetField v k).bind jsStrVal with
  | some s => s
  | none => d

/-- `String(raw.k ?? '')`. -/
def nullishStr (v : JsVal) (k : String) : String :=
  match jGetField v k with
  | none => ""
  | some .vnull => ""
  | some w => jsToString w

def jsTruthy : JsVal → Bool
  | .vnull => false
  | .vbool b => b
  | .vnum (.finite f) => f.num ≠ 0
  | .vnum (.infinite _) => true
  | .vnum .nanv => false
  | .vstr s => s ≠ ""
  | .varr _ => true
  | .vobj _ => true

/-- `Boolean(raw.k)` (a missing field is `undefined`, hence `false`). -/
def truthyField (v : JsVal) (k : String) : Bool :=
  match jGetField v k with
  | some w => jsTruthy w
  | none => false

/-- `'k' in raw`. -/
def hasField (v : JsVal) (k : String) : Bool := (jGetField v k).isSome

/-- `raw.enabled !== false`. -/
def presetEnabled (v : JsVal) : Bool :=
  match jGetField v "enabled" with
  | some (.vbool false) => false
  | _ => true

/-- The `switch (raw.type)` scrutinee: only a string tag can match a
case label. -/
def typeTagOf (v : JsVal) : Option String := (jGetField v "type").bind jsStrVal

def coerceReplacement (p : JsVal) : ReplacementPair :=
  { key := nullishStr p "key", value := nullishStr p "value" }

/-- `Array.isArray(raw.replacements) ? raw.replacements :
(raw.replacements && typeof raw.replacements === 'object' ?
Object.entries(...).map(([key, value]) => ({key, value})) : [])`. -/
def replacementListOf (v : JsVal) : List JsVal :=
  match jGetField v "replacements" with
  | some (.varr xs) => xs
  | some (.vobj fs) =>
    (jsEntriesOrder fs).map (fun kv => .vobj [("key", .vstr kv.1), ("value", kv.2)])
  | _ => []

/-- `valueToUi`: `(valueType, valueRaw, valueBool)` from a manifest
`value`. -/
def valueToUi : JsVal → ValueType × String × Bool
  | .vbool b => (.vtBoolean, "", b)
  | .vnum n => (.vtNumber, jsNumToStr n, false)
  | .vstr s => (.vtString, s, false)
  | .vnull => (.vtJson, jsonStringifyPretty .vnull, false)
  | .varr xs => (.vtJson, jsonStringifyPretty (.varr xs), false)
  | .vobj fs => (.vtJson, jsonStringifyPretty (.vobj fs), false)

def presetValueType (v : JsVal) : ValueType :=
  match (jGetField v "valueType").bind jsStrVal with
  | some t =>
    if t = "number" then .vtNumber
    else if t = "boolean" then .vtBoolean
    else if t = "json" then .vtJson
    else .vtString
  | none => .vtString

/-- The `valueType/valueRaw/valueBool` triple a `setJsonValue` preset
step is coerced to. -/
def presetJsonFields (v : JsVal) : ValueType × String × Bool :=
  if hasField v "valueRaw" || hasField v "valueBool" || hasField v "valueType" then
    (presetValueType v,
      (match jGetField v "valueRaw" with
        | some (.vstr s) => s
        | none => ""
        | some .vnull => ""
        | some w => jsToString w),
      truthyField v "valueBool")
  else if hasField v "value" then
    match jGetField v "value" with
    | some w => valueToUi w
    | none => (.vtString, "", false)
  else (.vtString, "", false)

/-- One arm of the `coercePresetSteps` map: `null` (here `none`) for a
non-object entry or an unknown `type` tag. -/
def coerceOneStep (v : JsVal) : Option UiStep :=
  match typeTagOf v with
  | none => none
  | some t =>
    if t = "copy" then
      some (.copy
        { enabled := presetEnabled v
          payloadSource := strFieldOr v "payloadSource" ""
          payloadRel := strFieldOr v "payloadRel" (nullishStr v "src")
          dest := strFieldOr v "dest" "" })
    else if t = "patchBlock" then
      some (.patchBlock
        { enabled := presetEnabled v
          file := strFieldOr v "file" ""
          startMarker := strFieldOr v "startMarker" ""
          endMarker := strFieldOr v "endMarker" ""
          contentSource := strFieldOr v "contentSource" ""
          contentRel := strFieldOr v "contentRel" (nullishStr v "contentFile")
          replacements := (replacementListOf v).map coerceReplacement })
    else if t = "setJsonValue" then
      some (.setJsonValue
        { enabled := presetEnabled v
          file := strFieldOr v "file" ""
          keyPath := strFieldOr v "keyPath" ""
          valueType := (presetJsonFields v).1
          valueRaw := (presetJsonFields v).2.1
          valueBool := (presetJsonFields v).2.2 })
    else if t = "base64Embed" then
      some (.base64Embed
        { enabled := presetEnabled v
          file := strFieldOr v "file" ""
          placeholder := strFieldOr v "placeholder" ""
          inputSource := strFieldOr v "inputSource" ""
          inputRel := strFieldOr v "inputRel" (nullishStr v "inputFile") })
    else if t = "runCommand" then
      some (.runCommand
        { enabled := presetEnabled v
          command := strFieldOr v "command" ""
          args :=
            match jGetField v "args" with
            | some (.varr xs) => String.intercalate ", " (xs.map jsToString)
            | some (.vstr s) => s
            | _ => "" })
    else none

def coercePresetSteps : JsVal → List UiStep
  | .varr xs => xs.filterMap coerceOneStep
  | _ => []

structure PresetDataM where
  appName : String
  version : String
  publisher : String
  description : String
  advancedMode : Bool
  payloadDir : Option String
  steps : List UiStep

def normalizePresetData (raw : JsVal) : PresetDataM :=
  { appName := strFieldOr raw "appName" "My App"
    version := strFieldOr raw "version" "1.0.0"
    publisher := strFieldOr raw "publisher" "Misfit"
    description := strFieldOr raw "description" "Created with Misfit Studio"
    advancedMode := truthyField raw "advancedMode"
    payloadDir := (jGetField raw "payloadDir").bind jsStrVal
    steps := coercePresetSteps (match jGetField raw "steps" with
      | some w => w
      | none => .vnull) }

def knownStepTypes : List String :=
  ["copy", "patchBlock", "setJsonValue", "base64Embed", "runCommand"]

def uiTypeName : UiStep → String
  | .copy _ => "copy"
  | .patchBlock _ => "patchBlock"
  | .setJsonValue _ => "setJsonValue"
  | .base64Embed _ => "base64Embed"
  | .runCommand _ => "runCommand"

theorem strFieldOr_default (v : JsVal) (k d : String)
    (h : (jGetField v k).bind jsStrVal = none) : strFieldOr v k d = d := by
  unfold strFieldOr
  rw [h]

theorem coerceOneStep_tag (w : JsVal) :
    (coerceOneStep w = none ↔ ∀ t, typeTagOf w = some t → t ∉ knownStepTypes) ∧
    (∀ s, coerceOneStep w = some s → typeTagOf w = some (uiTypeName s)) := by
  cases hg : typeTagOf w with
  | none =>
    refine ⟨⟨fun _ t ht => ?_, fun _ => by simp [coerceOneStep, hg]⟩, fun s hs => ?_⟩
    · cases ht
    · simp [coerceOneStep, hg] at hs
  | some t =>
    by_cases h1 : t = "copy"
    · subst h1
      refine ⟨⟨fun hnone => ?_, fun hall => ?_⟩, fun s hs => ?_⟩
      · simp [coerceOneStep, hg] at hnone
      · exact absurd (show ("copy" : String) ∈ knownStepTypes by decide) (hall "copy" rfl)
      · simp only [coerceOneStep, hg, if_pos rfl] at hs
        obtain rfl := Option.some.inj hs
        rfl
    · by_cases h2 : t = "patchBlock"
      · subst h2
        refine ⟨⟨fun hnone => ?_, fun hall => ?_⟩, fun s hs => ?_⟩
        · simp [coerceOneStep, hg] at hnone
        · exact absurd (show ("patchBlock" : String) ∈ knownStepTypes by decide)
            (hall "patchBlock" rfl)
        · simp only [coerceOneStep, hg, if_neg (by decide : ¬("patchBlock" : String) = "copy"),
            if_pos rfl] at hs
          obtain rfl := Option.some.inj hs
          rfl
      · by_cases h3 : t = "setJsonValue"
        · subst h3
          refine ⟨⟨fun hnone => ?_, fun hall => ?_⟩, fun s hs => ?_⟩
          · simp [coerceOneStep, hg] at hnone
          · exact absurd (show ("setJsonValue" : String) ∈ knownStepTypes by decide)
              (hall "setJsonValue" rfl)
          · simp only [coerceOneStep, hg,
              if_neg (by decide : ¬("setJsonValue" : String) = "copy"),
              if_neg (by decide : ¬("setJsonValue" : String) = "patchBlock"),
              if_pos rfl] at hs
            obtain rfl := Option.some.inj hs
            rfl
        · by_cases h4 : t = "base64Embed"
          · subst h4
            refine ⟨⟨fun hnone => ?_, fun hall => ?_⟩, fun s hs => ?_⟩
            · simp [coerceOneStep, hg] at hnone
            · exact absurd (show ("base64Embed" : String) ∈ knownStepTypes by decide)
                (hall "base64Embed" rfl)
            · simp only [coerceOneStep, hg,
                if_neg (by decide : ¬("base64Embed" : String) = "copy"),
                if_neg (by decide : ¬("base64Embed" : String) = "patchBlock"),
                if_neg (by decide : ¬("base64Embed" : String) = "setJsonValue"),
                if_pos rfl] at hs
              obtain rfl := Option.some.inj hs
              rfl
          · by_cases h5 : t = "runCommand"
            · subst h5
              refine ⟨⟨fun hnone => ?_, fun hall => ?_⟩, fun s hs => ?_⟩
              · simp [coerceOneStep, hg] at hnone
              · exact absurd (show ("runCommand" : String) ∈ knownStepTypes by decide)
                  (hall "runCommand" rfl)
              · simp only [coerceOneStep, hg,
                  if_neg (by decide : ¬("runCommand" : String) = "copy"),
                  if_neg (by decide : ¬("runCommand" : String) = "patchBlock"),
                  if_neg (by decide : ¬("runCommand" : String) = "setJsonValue"),
                  if_neg (by decide : ¬("runCommand" : String) = "base64Embed"),
                  if_pos rfl] at hs
                obtain rfl := Option.some.inj hs
                rfl
            · refine ⟨⟨fun _ t' ht' => ?_, fun _ => ?_⟩, fun s hs => ?_⟩
              · obtain rfl := Option.some.inj ht'
                simp [knownStepTypes, h1, h2, h3, h4, h5]
              · simp [coerceOneStep, hg, h1, h2, h3, h4, h5]
              · simp [coerceOneStep, hg, h1, h2, h3, h4, h5] at hs

theorem coercePresetSteps_known (v : JsVal) (s : UiStep) (hs : s ∈ coercePresetSteps v) :
    uiTypeName s ∈ knownStepTypes := by
  cases v with
  | varr xs =>
    simp only [coercePresetSteps] at hs
    obtain ⟨w, _, hw⟩ := List.mem_filterMap.mp hs
    by_contra hnot
    have hnone : coerceOneStep w = none := by
      refine (coerceOneStep_tag w).1.mpr (fun t ht => ?_)
      rw [(coerceOneStep_tag w).2 s hw] at ht
      obtain rfl := Option.some.inj ht
      exact hnot
    rw [hnone] at hw
    cases hw
  | vnull => cases hs
  | vbool b => cases hs
  | vnum n => cases hs
  | vstr str => cases hs
  | vobj fs => cases hs

/-- C10: preset normalization is total and tag-safe — mistyped or
missing identity fields fall back to their defaults, every step the
normalizer keeps carries one of the five known type tags, an entry is
dropped (`none`) exactly when it has no known string `type` tag, and a
kept entry's tag matches the produced step's type. -/
theorem normalizePresetData_total (raw : JsVal) :
    ((jGetField raw "appName").bind jsStrVal = none →
      (normalizePresetData raw).appName = "My App") ∧
    ((jGetField raw "version").bind jsStrVal = none →
      (normalizePresetData raw).version = "1.0.0") ∧
    ((jGetField raw "publisher").bind jsStrVal = none →
      (normalizePresetData raw).publisher = "Misfit") ∧
    ((jGetField raw "description").bind jsStrVal = none →
      (normalizePresetData raw).description = "Created with Misfit Studio") ∧
    (∀ s ∈ (normalizePresetData raw).steps, uiTypeName s ∈ knownStepTypes) ∧
    (∀ w, coerceOneStep w = none ↔ ∀ t, typeTagOf w = some t → t ∉ knownStepTypes) ∧
    (∀ w s, coerceOneStep w = some s → typeTagOf w = some (uiTypeName s)) :=
  ⟨strFieldOr_default raw "appName" _,
    strFieldOr_default raw "version" _,
    strFieldOr_default raw "publisher" _,
    strFieldOr_default raw "description" _,
    fun s hs => coercePresetSteps_known _ s hs,
    fun w => (coerceOneStep_tag w).1,
    fun w s => (coerceOneStep_tag w).2 s⟩

def c10raw : JsVal :=
  .vobj [("appName", .vnum (.finite ⟨7, 1⟩)),
    ("steps", .varr
      [.vobj [("type", .vstr "copy"), ("payloadSource", .vstr "a.css"),
        ("src", .vstr "legacy")],
       .vstr "junk",
       .vobj [("type", .vstr "mystery")]])]

/-! ## Manifest export (App.tsx `buildManifestForExport`, claim C9) -/

/-- One iteration of the export loop: `none` models `continue`. -/
def exportStep : UiStep → Option InstallStepM
  | .copy d =>
    if ¬d.enabled then none
    else
      let rel := if jsTrim d.payloadRel ≠ "" then jsTrim d.payloadRel
        else if d.payloadSource ≠ "" then toBaseName d.payloadSource else ""
      if rel = "" ∧ jsTrim d.dest = "" then none
      else some (.copy rel (jsTrim d.dest))
  | .patchBlock d =>
    if ¬d.enabled then none
    else if jsTrim d.file = "" ∧ jsTrim d.contentRel = "" ∧ jsTrim d.contentSource = "" then
      none
    else
      let rel := if jsTrim d.contentRel ≠ "" then jsTrim d.contentRel
        else if d.contentSource ≠ "" then toBaseName d.contentSource else ""
      some (.patchBlock (jsTrim d.file) (jsTrim d.startMarker) (jsTrim d.endMarker) rel
        (buildReplacements d.replacements))
  | .setJsonValue d =>
    if ¬d.enabled then none
    else if jsTrim d.file = "" ∧ jsTrim d.keyPath = "" ∧ jsTrim d.valueRaw = "" then none
    else
      let value :=
        match d.valueType with
        | .vtNumber =>
          match jsStringToNumber d.valueRaw with
          | .nanv => JsVal.vstr d.valueRaw
          | n => JsVal.vnum n
        | .vtBoolean => JsVal.vbool d.valueBool
        | .vtJson =>
          match jsonParseJS (if d.valueRaw = "" then "null" else d.valueRaw) with
          | some t => t
          | none => JsVal.vstr d.valueRaw
        | .vtString => JsVal.vstr d.valueRaw
      some (.setJsonValue (jsTrim d.file) (jsTrim d.keyPath) value)
  | .base64Embed d =>
    if ¬d.enabled then none
    else if jsTrim d.file = "" ∧ jsTrim d.inputRel = "" ∧ jsTrim d.inputSource = "" then none
    else
      let rel := if jsTrim d.inputRel ≠ "" then jsTrim d.inputRel
        else if d.inputSource ≠ "" then toBaseName d.inputSource else ""
      some (.base64Embed (jsTrim d.file) (jsTrim d.placeholder) rel)
  | .runCommand d =>
    if ¬d.enabled then none
    else if jsTrim d.command = "" ∧ jsTrim d.args = "" then none
    else some (.runCommand (jsTrim d.command) (parseArgs d.args))

def buildManifestForExport (form : StudioForm) (steps : List UiStep) : ManifestM :=
  { appName := form.appName
    version := form.version
    publisher := form.publisher
    description := form.description
    advancedMode := form.advancedMode
    targets := []
    payloadDir := payloadDirValue form.payloadDir
    installSteps := steps.filterMap exportStep }

theorem processStep_jsonfail_err (st : BuildState) (d : SetJsonValueStepData)
    (hen : d.enabled = true) (hty : d.valueType = .vtJson)
    (hp : jsonParseJS (if d.valueRaw = "" then "null" else d.valueRaw) = none) :
    ∃ e, e ∈ (processStep st (.setJsonValue d)).errors := by
  simp only [processStep, if_neg (not_not_intro hen)]
  by_cases hf : jsTrim d.file = ""
  · rw [if_pos hf]
    exact ⟨.jsonMissingFile, by simp [pushErr]⟩
  · rw [if_neg hf]
    by_cases hk : jsTrim d.keyPath = ""
    · rw [if_pos hk]
      exact ⟨.jsonMissingKeyPath, by simp [pushErr]⟩
    · rw [if_neg hk, hty, hp]
      exact ⟨.jsonValueInvalid, by simp [pushErr]⟩

theorem runBuildValidation_jsonfail_err (L1 L2 : List UiStep) (d : SetJsonValueStepData)
    (hen : d.enabled = true) (hty : d.valueType = .vtJson)
    (hp : jsonParseJS (if d.valueRaw = "" then "null" else d.valueRaw) = none) :
    (runBuildValidation (L1 ++ .setJsonValue d :: L2)).errors ≠ [] := by
  unfold runBuildValidation
  rw [List.foldl_append]
  simp only [List.foldl_cons]
  obtain ⟨e, he⟩ := processStep_jsonfail_err (List.foldl processStep initBuildState L1) d hen hty hp
  have hm := foldl_errors_mono L2 _ e he
  intro hnil
  rw [hnil] at hm
  cases hm

/-- C9: export never rejects a step value. An enabled `setJsonValue`
step that is not skipped as all-blank exports the untouched raw string
as its value when the raw value fails to parse — as a number
(`Number(...)` is NaN) or as JSON (`JSON.parse` throws) — while
`handleBuild` on the very same step list throws a validation error. -/
theorem exportManifest_never_fails_on_values (form : StudioForm) (L1 L2 : List UiStep)
    (d : SetJsonValueStepData) (hen : d.enabled = true)
    (hne : ¬(jsTrim d.file = "" ∧ jsTrim d.keyPath = "" ∧ jsTrim d.valueRaw = "")) :
    (d.valueType = .vtNumber → jsNumberIsNaN d.valueRaw = true →
      exportStep (.setJsonValue d) =
        some (.setJsonValue (jsTrim d.file) (jsTrim d.keyPath) (.vstr d.valueRaw)) ∧
      (buildManifestForExport form (L1 ++ .setJsonValue d :: L2)).installSteps =
        L1.filterMap exportStep ++
          .setJsonValue (jsTrim d.file) (jsTrim d.keyPath) (.vstr d.valueRaw) ::
            L2.filterMap exportStep ∧
      (∃ es, handleBuildPlan form (L1 ++ .setJsonValue d :: L2) = .error es)) ∧
    (d.valueType = .vtJson →
      jsonParseJS (if d.valueRaw = "" then "null" else d.valueRaw) = none →
      exportStep (.setJsonValue d) =
        some (.setJsonValue (jsTrim d.file) (jsTrim d.keyPath) (.vstr d.valueRaw)) ∧
      (buildManifestForExport form (L1 ++ .setJsonValue d :: L2)).installSteps =
        L1.filterMap exportStep ++
          .setJsonValue (jsTrim d.file) (jsTrim d.keyPath) (.vstr d.valueRaw) ::
            L2.filterMap exportStep ∧
      (∃ es, handleBuildPlan form (L1 ++ .setJsonValue d :: L2) = .error es)) := by
  constructor
  · intro hty hnan
    have hnan' : jsStringToNumber d.valueRaw = .nanv := by
      simpa [jsNumberIsNaN] using hnan
    have hexp : exportStep (.setJsonValue d) =
        some (.setJsonValue (jsTrim d.file) (jsTrim d.keyPath) (.vstr d.valueRaw)) := by
      simp only [exportStep, if_neg (not_not_intro hen), if_neg hne]
      rw [hty, hnan']
    refine ⟨hexp, ?_, ?_⟩
    · simp only [buildManifestForExport]
      rw [List.filterMap_append]
      simp [List.filterMap_cons, hexp]
    · have herr := runBuildValidation_nan_err L1 L2 d hen hty hnan'
      exact ⟨(runBuildValidation (L1 ++ .setJsonValue d :: L2)).errors,
        by simp only [handleBuildPlan, if_neg herr]⟩
  · intro hty hp
    have hexp : exportStep (.setJsonValue d) =
        some (.setJsonValue (jsTrim d.file) (jsTrim d.keyPath) (.vstr d.valueRaw)) := by
      simp only [exportStep, if_neg (not_not_intro hen), if_neg hne]
      rw [hty, hp]
    refine ⟨hexp, ?_, ?_⟩
    · simp only [buildManifestForExport]
      rw [List.filterMap_append]
      simp [List.filterMap_cons, hexp]
    · have herr := runBuildValidation_jsonfail_err L1 L2 d hen hty hp
      exact ⟨(runBuildValidation (L1 ++ .setJsonValue d :: L2)).errors,
        by simp only [handleBuildPlan, if_neg herr]⟩

def c9num : SetJsonValueStepData :=
  { enabled := true, file := "cfg.json", keyPath := "a.b"
    valueType := .vtNumber, valueRaw := "abc", valueBool := false }

def c9json : SetJsonValueStepData :=
  { enabled := true, file := "cfg.json", keyPath := "a.b"
    valueType := .vtJson, valueRaw := ":", valueBool := false }

theorem exportManifest_never_fails_on_values_witness :
    c9num.enabled = true ∧
    ¬(jsTrim c9num.file = "" ∧ jsTrim c9num.keyPath = "" ∧ jsTrim c9num.valueRaw = "") ∧
    jsNumberIsNaN c9num.valueRaw = true ∧
    exportStep (.setJsonValue c9num) = some (.setJsonValue "cfg.json" "a.b" (.vstr "abc")) ∧
    (∃ es, handleBuildPlan sampleForm ([] ++ .setJsonValue c9num :: []) = .error es) ∧
    jsonParseJS ":" = none ∧
    exportStep (.setJsonValue c9json) = some (.setJsonValue "cfg.json" "a.b" (.vstr ":")) ∧
    (∃ es, handleBuildPlan sampleForm ([] ++ .setJsonValue c9json :: []) = .error es) := by
  obtain ⟨hn, _⟩ :=
    exportManifest_never_fails_on_values sampleForm [] [] c9num rfl (by decide)
  obtain ⟨hne1, _, hes1⟩ := hn rfl rfl
  obtain ⟨_, hj⟩ :=
    exportManifest_never_fails_on_values sampleForm [] [] c9json rfl (by decide)
  obtain ⟨hje, _, hes2⟩ := hj rfl rfl
  exact ⟨rfl, by decide, rfl, hne1, hes1, rfl, hje, hes2⟩

theorem normalizePresetData_total_witness :
    (jGetField c10raw "appName").bind jsStrVal = none ∧
    (normalizePresetData c10raw).appName = "My App" ∧
    (normalizePresetData c10raw).steps =
      [.copy { enabled := true, payloadSource := "a.css", payloadRel := "legacy"
               dest := "" }] ∧
    coerceOneStep (.vstr "junk") = none ∧
    coerceOneStep (.vobj [("type", .vstr "mystery")]) = none := by
  refine ⟨rfl, (normalizePresetData_total c10raw).1 rfl, rfl, rfl, rfl⟩

/-! ## Manifest import (App.tsx `manifestStepToUi` / `applyManifest`, claim C6) -/

/-- `manifestStepToUi` on a typed manifest step (never `null` on the
five known step shapes; `id` is UI-only and omitted from the model). -/
def importStep (payloadDir : String) : InstallStepM → UiStep
  | .copy src dest =>
    .copy { enabled := true
            payloadSource := resolvePayloadSource payloadDir src
            payloadRel := src
            dest := dest }
  | .patchBlock file startMarker endMarker contentFile replacements =>
    .patchBlock
      { enabled := true
        file := file
        startMarker := startMarker
        endMarker := endMarker
        contentSource := resolvePayloadSource payloadDir contentFile
        contentRel := contentFile
        replacements :=
          match replacements with
          | some fs => (jsEntriesOrder fs).map
              (fun kv => ({ key := kv.1, value := kv.2 } : ReplacementPair))
          | none => [] }
  | .setJsonValue file keyPath value =>
    .setJsonValue
      { enabled := true
        file := file
        keyPath := keyPath
        valueType := (valueToUi value).1
        valueRaw := (valueToUi value).2.1
        valueBool := (valueToUi value).2.2 }
  | .base64Embed file placeholder inputFile =>
    .base64Embed
      { enabled := true
        file := file
        placeholder := placeholder
        inputSource := resolvePayloadSource payloadDir inputFile
        inputRel := inputFile }
  | .runCommand command args =>
    .runCommand { enabled := true, command := command
                  args := String.intercalate ", " args }

/-- The step list `applyManifest` installs from a typed manifest. -/
def applyManifestSteps (payloadDir : String) (steps : List InstallStepM) : List UiStep :=
  steps.map (importStep payloadDir)

/-- Export the current steps and re-import the resulting manifest. -/
def roundTripSteps (form : StudioForm) (steps : List UiStep) : List UiStep :=
  let manifest := buildManifestForExport form steps
  applyManifestSteps manifest.payloadDir manifest.installSteps

/-- The export normal form under which the export/import round trip is
the identity: the step is enabled, its exported fields are
trim-fixed, its payload-relative names are non-blank, its source
fields agree with `resolvePayloadSource`, replacement keys are
non-blank, non-index-like and duplicate-free, and its value survives
its own parse/print cycle. -/
def stepExportNormal (pd : String) : UiStep → Prop
  | .copy d =>
    d.enabled = true ∧ jsTrim d.payloadRel = d.payloadRel ∧ d.payloadRel ≠ "" ∧
    jsTrim d.dest = d.dest ∧ d.payloadSource = resolvePayloadSource pd d.payloadRel
  | .patchBlock d =>
    d.enabled = true ∧ jsTrim d.file = d.file ∧ jsTrim d.startMarker = d.startMarker ∧
    jsTrim d.endMarker = d.endMarker ∧ jsTrim d.contentRel = d.contentRel ∧
    d.contentRel ≠ "" ∧ d.contentSource = resolvePayloadSource pd d.contentRel ∧
    (∀ p ∈ d.replacements, jsTrim p.key ≠ "" ∧ isArrayIndexKey p.key = none) ∧
    (d.replacements.map (fun p => p.key)).Nodup
  | .setJsonValue d =>
    d.enabled = true ∧ jsTrim d.file = d.file ∧ jsTrim d.keyPath = d.keyPath ∧
    ¬(d.file = "" ∧ d.keyPath = "" ∧ jsTrim d.valueRaw = "") ∧
    (match d.valueType with
      | .vtString => d.valueBool = false
      | .vtBoolean => d.valueRaw = ""
      | .vtNumber => d.valueBool = false ∧ jsStringToNumber d.valueRaw ≠ .nanv ∧
          jsNumToStr (jsStringToNumber d.valueRaw) = d.valueRaw
      | .vtJson => d.valueBool = false ∧
          ∃ t, jsonParseJS (if d.valueRaw = "" then "null" else d.valueRaw) = some t ∧
            (match t with
              | .vnull => True
              | .varr _ => True
              | .vobj _ => True
              | _ => False) ∧
            jsonStringifyPretty t = d.valueRaw)
  | .base64Embed d =>
    d.enabled = true ∧ jsTrim d.file = d.file ∧ jsTrim d.placeholder = d.placeholder ∧
    jsTrim d.inputRel = d.inputRel ∧ d.inputRel ≠ "" ∧
    d.inputSource = resolvePayloadSource pd d.inputRel
  | .runCommand d =>
    d.enabled = true ∧ jsTrim d.command = d.command ∧
    ¬(d.command = "" ∧ jsTrim d.args = "") ∧
    String.intercalate ", " (parseArgs d.args) = d.args

theorem jsAssign_append {α : Type} (r : List (String × α)) (k : String) (v : α)
    (h : ∀ kv ∈ r, kv.1 ≠ k) : jsAssign r k v = r ++ [(k, v)] := by
  induction r with
  | nil => rfl
  | cons kv rest ih =>
    simp only [jsAssign]
    rw [if_neg (h kv (List.mem_cons_self kv rest)),
      ih (fun kv' hkv' => h kv' (List.mem_cons_of_mem kv hkv'))]
    rfl

theorem recordFromPairs_aux {α : Type} (l : List (String × α)) :
    ∀ acc, (l.map Prod.fst).Nodup →
      (∀ kv ∈ acc, ∀ kv' ∈ l, kv.1 ≠ kv'.1) →
      List.foldl (fun r kv => jsAssign r kv.1 kv.2) acc l = acc ++ l := by
  induction l with
  | nil => intro acc _ _; simp
  | cons kv rest ih =>
    obtain ⟨k, v⟩ := kv
    intro acc hnd hdisj
    have hnd0 : (k :: rest.map Prod.fst).Nodup := hnd
    have hk : k ∉ rest.map Prod.fst := (List.nodup_cons.mp hnd0).1
    have hnd2 : (rest.map Prod.fst).Nodup := (List.nodup_cons.mp hnd0).2
    simp only [List.foldl_cons]
    rw [jsAssign_append acc k v
      (fun kv' hkv' => hdisj kv' hkv' (k, v) (List.mem_cons_self _ _))]
    rw [ih (acc ++ [(k, v)]) hnd2 ?_]
    · simp
    · intro kv' hkv' kv'' hkv''
      rcases List.mem_append.mp hkv' with hl | hr
      · exact hdisj kv' hl kv'' (List.mem_cons_of_mem _ hkv'')
      · obtain rfl := List.mem_singleton.mp hr
        intro heq
        apply hk
        have heq' : k = kv''.1 := heq
        rw [heq']
        exact List.mem_map_of_mem Prod.fst hkv''

theorem jsRecordFromPairs_nodup {α : Type} (l : List (String × α))
    (h : (l.map Prod.fst).Nodup) : jsRecordFromPairs l = l := by
  have := recordFromPairs_aux l [] h
    (fun kv hkv => absurd hkv (List.not_mem_nil kv))
  simpa [jsRecordFromPairs] using this

theorem jsEntriesOrder_nonindex {α : Type} (fs : List (String × α))
    (h : ∀ kv ∈ fs, isArrayIndexKey kv.1 = none) :
    jsEntriesOrder fs = fs := by
  unfold jsEntriesOrder
  have h1 : fs.filter (fun kv => (isArrayIndexKey kv.1).isSome) = [] := by
    rw [List.filter_eq_nil_iff]
    intro kv hkv
    simp [h kv hkv]
  have h2 : fs.filter (fun kv => (isArrayIndexKey kv.1).isNone) = fs := by
    rw [List.filter_eq_self]
    intro kv hkv
    simp [h kv hkv]
  rw [h1, h2]
  rfl

theorem replacements_roundtrip (l : List ReplacementPair)
    (hkeys : ∀ p ∈ l, jsTrim p.key ≠ "" ∧ isArrayIndexKey p.key = none)
    (hnd : (l.map (fun p => p.key)).Nodup) :
    (match buildReplacements l with
      | some fs => (jsEntriesOrder fs).map
          (fun kv => ({ key := kv.1, value := kv.2 } : ReplacementPair))
      | none => []) = l := by
  unfold buildReplacements
  have hfilter : l.filter (fun p => jsTrim p.key ≠ "") = l :=
    List.filter_eq_self.mpr (fun p hp => by simp [(hkeys p hp).1])
  rw [hfilter]
  have hmapnd : ((l.map (fun p => (p.key, p.value))).map Prod.fst).Nodup := by
    simpa [List.map_map, Function.comp] using hnd
  rw [jsRecordFromPairs_nodup _ hmapnd]
  cases l with
  | nil => rfl
  | cons p rest =>
    rw [if_neg (by simp)]
    have hni : ∀ kv ∈ (p :: rest).map (fun q => (q.key, q.value)),
        isArrayIndexKey kv.1 = none := by
      intro kv hkv
      obtain ⟨p', hp', rfl⟩ := List.mem_map.mp hkv
      exact (hkeys p' hp').2
    show ((jsEntriesOrder ((p :: rest).map (fun q => (q.key, q.value)))).map
        (fun kv => ({ key := kv.1, value := kv.2 } : ReplacementPair))) = p :: rest
    rw [jsEntriesOrder_nonindex _ hni, List.map_map]
    exact List.map_id'' (fun q => rfl) (p :: rest)

theorem importStep_exportStep (pd : String) (s : UiStep)
    (h : stepExportNormal pd s) :
    ∃ m, exportStep s = some m ∧ importStep pd m = s := by
  cases s with
  | copy d =>
    obtain ⟨en, ps, pr, de⟩ := d
    obtain ⟨hen, hrel, hrelne, hdest, hsrc⟩ := h
    replace hen : en = true := hen
    replace hrel : jsTrim pr = pr := hrel
    replace hrelne : pr ≠ "" := hrelne
    replace hdest : jsTrim de = de := hdest
    replace hsrc : ps = resolvePayloadSource pd pr := hsrc
    subst hen
    refine ⟨.copy pr (jsTrim de), ?_, ?_⟩
    · simp [exportStep, hrel, hrelne]
    · simp [importStep, hdest, hsrc]
  | patchBlock d =>
    obtain ⟨en, fi, sm, em, cs, cr, rp⟩ := d
    obtain ⟨hen, hfi, hsm, hem, hcr, hcrne, hcs, hkeys, hnd⟩ := h
    replace hen : en = true := hen
    replace hfi : jsTrim fi = fi := hfi
    replace hsm : jsTrim sm = sm := hsm
    replace hem : jsTrim em = em := hem
    replace hcr : jsTrim cr = cr := hcr
    replace hcrne : cr ≠ "" := hcrne
    replace hcs : cs = resolvePayloadSource pd cr := hcs
    replace hkeys : ∀ p ∈ rp, jsTrim p.key ≠ "" ∧ isArrayIndexKey p.key = none := hkeys
    replace hnd : (rp.map (fun p => p.key)).Nodup := hnd
    subst hen
    refine ⟨.patchBlock fi sm em cr (buildReplacements rp), ?_, ?_⟩
    · simp [exportStep, hfi, hsm, hem, hcr, hcrne]
    · simp only [importStep]
      rw [replacements_roundtrip rp hkeys hnd]
      simp [hcs]
  | setJsonValue d =>
    obtain ⟨en, fi, kp, vt, vr, vb⟩ := d
    obtain ⟨hen, hfi, hkp, hne, hval⟩ := h
    replace hen : en = true := hen
    replace hfi : jsTrim fi = fi := hfi
    replace hkp : jsTrim kp = kp := hkp
    replace hne : ¬(fi = "" ∧ kp = "" ∧ jsTrim vr = "") := hne
    subst hen
    cases vt with
    | vtString =>
      have hvb : vb = false := hval
      subst hvb
      refine ⟨.setJsonValue fi kp (.vstr vr), ?_, ?_⟩
      · simp [exportStep, hfi, hkp, hne]
      · simp [importStep, valueToUi]
    | vtBoolean =>
      have hvr : vr = "" := hval
      subst hvr
      refine ⟨.setJsonValue fi kp (.vbool vb), ?_, ?_⟩
      · simp [exportStep, hfi, hkp, hne]
      · simp [importStep, valueToUi]
    | vtNumber =>
      obtain ⟨hvb, hnn, hrt⟩ := hval
      replace hvb : vb = false := hvb
      replace hnn : jsStringToNumber vr ≠ .nanv := hnn
      replace hrt : jsNumToStr (jsStringToNumber vr) = vr := hrt
      subst hvb
      cases hj : jsStringToNumber vr with
      | nanv => exact absurd hj hnn
      | finite f =>
        refine ⟨.setJsonValue fi kp (.vnum (.finite f)), ?_, ?_⟩
        · simp [exportStep, hfi, hkp, hne, hj]
        · simp only [importStep, valueToUi]
          rw [← hj, hrt]
      | infinite b =>
        refine ⟨.setJsonValue fi kp (.vnum (.infinite b)), ?_, ?_⟩
        · simp [exportStep, hfi, hkp, hne, hj]
        · simp only [importStep, valueToUi]
          rw [← hj, hrt]
    | vtJson =>
      obtain ⟨hvb, t, hp, hshape, hstr⟩ := hval
      replace hvb : vb = false := hvb
      replace hp : jsonParseJS (if vr = "" then "null" else vr) = some t := hp
      replace hstr : jsonStringifyPretty t = vr := hstr
      subst hvb
      refine ⟨.setJsonValue fi kp t, ?_, ?_⟩
      · simp [exportStep, hfi, hkp, hne, hp]
      · cases t with
        | vnull =>
          simp [importStep, valueToUi, hstr]
        | varr xs =>
          simp [importStep, valueToUi, hstr]
        | vobj fs =>
          simp [importStep, valueToUi, hstr]
        | vbool b => exact hshape.elim
        | vnum n => exact hshape.elim
        | vstr s2 => exact hshape.elim
  | base64Embed d =>
    obtain ⟨en, fi, ph, isrc, irel⟩ := d
    obtain ⟨hen, hfi, hph, hirel, hirelne, hisrc⟩ := h
    replace hen : en = true := hen
    replace hfi : jsTrim fi = fi := hfi
    replace hph : jsTrim ph = ph := hph
    replace hirel : jsTrim irel = irel := hirel
    replace hirelne : irel ≠ "" := hirelne
    replace hisrc : isrc = resolvePayloadSource pd irel := hisrc
    subst hen
    refine ⟨.base64Embed fi ph irel, ?_, ?_⟩
    · simp [exportStep, hfi, hph, hirel, hirelne]
    · simp [importStep, hisrc]
  | runCommand d =>
    obtain ⟨en, cmd, ag⟩ := d
    obtain ⟨hen, hcmd, hne, hargs⟩ := h
    replace hen : en = true := hen
    replace hcmd : jsTrim cmd = cmd := hcmd
    replace hne : ¬(cmd = "" ∧ jsTrim ag = "") := hne
    replace hargs : String.intercalate ", " (parseArgs ag) = ag := hargs
    subst hen
    refine ⟨.runCommand cmd (parseArgs ag), ?_, ?_⟩
    · simp [exportStep, hcmd, hne]
    · simp [importStep, hargs]

theorem roundtrip_aux (pd : String) : ∀ (steps : List UiStep),
    (∀ s ∈ steps, stepExportNormal pd s) →
    (steps.filterMap exportStep).map (importStep pd) = steps := by
  intro steps
  induction steps with
  | nil => intro _; rfl
  | cons s rest ih =>
    intro h
    obtain ⟨m, hm, him⟩ := importStep_exportStep pd s (h s (List.mem_cons_self _ _))
    simp only [List.filterMap_cons, hm, List.map_cons]
    rw [him, ih (fun s' hs' => h s' (List.mem_cons_of_mem _ hs'))]

def c6copyRaw : UiStep :=
  .copy { enabled := true, payloadSource := "payloads/x.css", payloadRel := "x.css"
          dest := " d" }

def c6disabledCopy : UiStep :=
  .copy { enabled := false, payloadSource := "payloads/x.css", payloadRel := "x.css"
          dest := "d" }

/-- C6 counterexample: the round trip is *not* the identity on
arbitrary UI-authored step lists — exported fields come back trimmed
(`dest := " d"` returns as `"d"`), and a disabled step is dropped from
the export entirely, so toggling is not preserved. -/
theorem export_import_roundtrip_counterexample :
    roundTripSteps sampleForm [c6copyRaw] =
      [.copy { enabled := true, payloadSource := "payloads/x.css", payloadRel := "x.css"
               dest := "d" }] ∧
    roundTripSteps sampleForm [c6copyRaw] ≠ [c6copyRaw] ∧
    roundTripSteps sampleForm [c6disabledCopy] = [] ∧
    [c6disabledCopy] ≠ ([] : List UiStep) :=
  ⟨rfl, by decide, rfl, by decide⟩

/-- C6 (amended): on step lists in export normal form — enabled steps
with trim-fixed fields, non-blank payload-relative names, sources
agreeing with `resolvePayloadSource`, well-formed replacement keys and
parse/print-stable values — exporting with `buildManifestForExport`
and re-importing through `manifestStepToUi`/`applyManifest`
reproduces exactly the original ordered step list. -/
theorem export_import_roundtrip (form : StudioForm) (steps : List UiStep)
    (h : ∀ s ∈ steps, stepExportNormal (payloadDirValue form.payloadDir) s) :
    roundTripSteps form steps = steps :=
  roundtrip_aux (payloadDirValue form.payloadDir) steps h

def c6good : List UiStep :=
  [.copy { enabled := true, payloadSource := "payloads/x.css", payloadRel := "x.css"
           dest := "C:\\target\\x.css" },
   .runCommand { enabled := true, command := "echo", args := "a, b" }]

theorem export_import_roundtrip_witness :
    (∀ s ∈ c6good, stepExportNormal (payloadDirValue sampleForm.payloadDir) s) ∧
    roundTripSteps sampleForm c6good = c6good := by
  have hforall : ∀ s ∈ c6good, stepExportNormal (payloadDirValue sampleForm.payloadDir) s := by
    intro s hs
    simp only [c6good, List.mem_cons, List.mem_singleton] at hs
    rcases hs with rfl | rfl | hs
    · exact ⟨rfl, by decide, by decide, by decide, by decide⟩
    · exact ⟨rfl, by decide, by decide, by decide⟩
    · cases hs
  exact ⟨hforall, export_import_roundtrip sampleForm c6good hforall⟩

end MisfitStudio
